import Mathlib

/-!
Shallow embedding of the rusty_mara allocator (a coalescing, segregated-fit,
in-band-metadata allocator over one caller-supplied byte buffer) and proofs
about it.

The heap is modelled as a total function from byte addresses to byte values.
Pointers are plain addresses (Nat); the null pointer is the address 0 and the
embedded heap is always placed at positive addresses.  Rust usize arithmetic
that can underflow is modelled with a checked subtraction returning Option
(none corresponds to the abort of the debug build).  Loops whose bound is not
syntactically evident receive an explicit fuel argument and return none when
the fuel runs out; every theorem instantiates the fuel with a sufficient
concrete value.

Sources embedded (file and function names follow the repository):
  src/code_block.rs   - boundary-tag codec
  src/globals.rs      - constants, de-Bruijn log2
  src/bucket_list.rs  - segregated free list
  src/space.rs        - block-extent helpers
  src/free_space.rs   - in-band next pointer (W = 4, feature bit32)
  src/allocation_data.rs - allocation record
  src/page.rs         - split, merge, delete
  src/page_list.rs    - page ring walk
  src/lib.rs          - Mara constructor
-/

namespace RustyMara

/-- Byte memory: total map from addresses to byte values. -/
abbrev Mem := Nat → Nat

/-- Store one byte. -/
def Mem.write (m : Mem) (a v : Nat) : Mem := fun x => if x = a then v else m x

/-- Checked usize subtraction: none models the overflow abort of the debug
build. -/
def checkedSub (a b : Nat) : Option Nat := if b ≤ a then some (a - b) else none

/-! ## code_block.rs: the boundary-tag codec

A tag is 1..K bytes.  Single byte: MSB set, bit 6 the free bit, low 6 bits the
payload size.  Multi byte: first byte MSB clear with the free bit and the 6
high size bits, middle bytes MSB set with 7 size bits each, final byte MSB
clear with the 7 low size bits. -/

/-- FREE_BIT of code_block.rs. -/
def FREE_BIT : Nat := 64

/-- SIZE_BIT of code_block.rs. -/
def SIZE_BIT : Nat := 128

/-- code_block.rs is_free: tests the free bit of the first tag byte. -/
def is_free (m : Mem) (a : Nat) : Bool := (m a &&& FREE_BIT) = FREE_BIT

/-- code_block.rs set_free: sets or clears the free bit of the first tag
byte (the used branch masks with 191). -/
def set_free (m : Mem) (a : Nat) (free : Bool) : Mem :=
  if free then m.write a (m a ||| FREE_BIT) else m.write a (m a &&& 191)

/-- Loop of get_needed_code_block_size: counts how often the argument must be
shifted right by 7 until it is zero. -/
def needed_loop (t : Nat) : Nat :=
  if t = 0 then 0 else 1 + needed_loop (t >>> 7)
decreasing_by
  simp only [Nat.shiftRight_eq_div_pow]
  exact Nat.div_lt_self (Nat.pos_of_ne_zero (by assumption)) (by norm_num)

/-- code_block.rs get_needed_code_block_size: bytes a tag needs for a given
payload size (1 if below 64, else one leading byte plus one byte per further
7 bits). -/
def get_needed_code_block_size (size_to_encode : Nat) : Nat :=
  if size_to_encode < FREE_BIT then 1
  else 1 + needed_loop (size_to_encode >>> 6)

/-- Loop of generate_code_block_for_payload_size computing the tag size for a
payload above 63: t starts at size >>> 6 and is shifted by 7 while above
127. -/
def payload_cbs_loop (t : Nat) : Nat :=
  if 127 < t then 1 + payload_cbs_loop (t >>> 7) else 0
decreasing_by
  simp only [Nat.shiftRight_eq_div_pow]
  exact Nat.div_lt_self (by omega) (by norm_num)

/-- Body of the write loop of generate_code_block_for_payload_size2 after the
first (rightmost) byte has been written: walks from a + c - 2 down to a,
writing continuation bytes, and finally the first byte together with the free
bit. -/
def gcb2_mid : Nat → Mem → Nat → Nat → Nat → Bool → Mem
  | 0, m, _, _, _, _ => m
  | fuel + 1, m, a, current, size, isfree =>
    if current = a then
      set_free (m.write a (size &&& 63)) a isfree
    else
      gcb2_mid fuel (m.write current ((size &&& 127) ||| SIZE_BIT)) a
        (current - 1) (size >>> 7) isfree

/-- code_block.rs generate_code_block_for_payload_size2: writes a tag of the
given size c at address a encoding the payload size; multi-byte tags are
written right to left. -/
def generate_code_block_for_payload_size2 (m : Mem) (a size : Nat)
    (isfree : Bool) (c : Nat) : Mem :=
  if c = 1 then set_free (m.write a (size ||| SIZE_BIT)) a isfree
  else
    gcb2_mid (c - 1) (m.write (a + c - 1) (size &&& 127)) a (a + c - 2)
      (size >>> 7) isfree

/-- code_block.rs generate_code_block_for_payload_size: computes the tag size
from the payload size and writes the tag at data_start; returns the new
memory and the tag size. -/
def generate_code_block_for_payload_size (m : Mem) (data_start size : Nat)
    (isfree : Bool) : Mem × Nat :=
  if size ≤ 63 then
    (set_free (m.write data_start (size ||| SIZE_BIT)) data_start isfree, 1)
  else
    let c := 2 + payload_cbs_loop (size >>> 6)
    (generate_code_block_for_payload_size2 m data_start size isfree c, c)

/-- Search loop of generate_code_block_for_internal_size: the least c starting
from the given one with get_needed_code_block_size (total - 2c) at most c.
The subtraction is checked; none also signals exhausted fuel. -/
def internal_cbs_loop : Nat → Nat → Nat → Option Nat
  | 0, _, _ => none
  | fuel + 1, total, c =>
    match checkedSub total (2 * c) with
    | none => none
    | some rem =>
      if c < get_needed_code_block_size rem then
        internal_cbs_loop fuel total (c + 1)
      else some c

/-- code_block.rs generate_code_block_for_internal_size: picks the least tag
size c such that total - 2c fits into a c-byte tag, writes that tag at a, and
returns the new memory together with c. -/
def generate_code_block_for_internal_size (fuel : Nat) (m : Mem)
    (a total : Nat) (isfree : Bool) : Option (Mem × Nat) :=
  match internal_cbs_loop fuel total 1 with
  | none => none
  | some c =>
    match checkedSub total (2 * c) with
    | none => none
    | some rem => some (generate_code_block_for_payload_size2 m a rem isfree c, c)

/-- Scan loop of get_block_size: counts continuation bytes. -/
def get_block_size_loop : Nat → Mem → Nat → Nat → Option Nat
  | 0, _, _, _ => none
  | fuel + 1, m, current, size =>
    if 0 < m current &&& SIZE_BIT then get_block_size_loop fuel m (current + 1) (size + 1)
    else some size

/-- code_block.rs get_block_size: the byte length of the tag at a, found by
scanning the continuation bits. -/
def get_block_size (fuel : Nat) (m : Mem) (a : Nat) : Option Nat :=
  if 0 < m a &&& SIZE_BIT then some 1
  else get_block_size_loop fuel m (a + 1) 2

/-- Decode loop of read_from_left: the accumulator always has its low 7 bits
clear; each continuation byte is merged and the accumulator shifted. -/
def read_left_loop : Nat → Mem → Nat → Nat → Option Nat
  | 0, _, _, _ => none
  | fuel + 1, m, current, size =>
    if 0 < m current &&& SIZE_BIT then
      read_left_loop fuel m (current + 1) ((size ||| (m current &&& 127)) <<< 7)
    else some (size ||| (m current &&& 127))

/-- code_block.rs read_from_left: decode the payload size of the tag whose
first byte is at a. -/
def read_from_left (fuel : Nat) (m : Mem) (a : Nat) : Option Nat :=
  if 0 < m a &&& SIZE_BIT then some (m a &&& 63)
  else read_left_loop fuel m (a + 1) ((m a &&& 63) <<< 7)

/-- Decode loop of read_from_right: walks left while the continuation bit is
set, merging 7-bit groups at increasing positions; the terminating byte
contributes its low 6 bits and is returned as the first byte of the tag. -/
def read_right_loop : Nat → Mem → Nat → Nat → Nat → Option (Nat × Nat)
  | 0, _, _, _, _ => none
  | fuel + 1, m, current, size, mshift =>
    if 0 < m current &&& SIZE_BIT then
      read_right_loop fuel m (current - 1)
        (size ||| ((m current &&& 127) <<< (7 * mshift))) (mshift + 1)
    else some (size ||| ((m current &&& 63) <<< (7 * mshift)), current)

/-- code_block.rs read_from_right: decode the tag whose last byte is at a,
returning the payload size and the address of the first tag byte. -/
def read_from_right (fuel : Nat) (m : Mem) (a : Nat) : Option (Nat × Nat) :=
  if 0 < m a &&& SIZE_BIT then some (m a &&& 63, a)
  else read_right_loop fuel m (a - 1) (m a &&& 127) 1

/-- Value of the free bit in the first tag byte. -/
def fbit (f : Bool) : Nat := if f then 64 else 0

/-- The c bytes at a hold the boundary-tag encoding of the pair (size, f):
single byte with the top bit set, or first byte with the high size bits, then
continuation bytes, then the final byte with the low seven bits.  The same
predicate at the first byte of the mirrored right tag describes the right end
of a block. -/
def EncodedAt (m : Mem) (a size : Nat) (f : Bool) (c : Nat) : Prop :=
  if c = 1 then
    size < 64 ∧ m a = size + 128 + fbit f
  else
    2 ≤ c ∧ size < 2 ^ (6 + 7 * (c - 1)) ∧
    m a = size >>> (7 * (c - 1)) + fbit f ∧
    (∀ j, j < c - 1 → 1 ≤ j → m (a + j) = (size >>> (7 * (c - 1 - j))) % 128 + 128) ∧
    m (a + (c - 1)) = size % 128

instance (m : Mem) (a size : Nat) (f : Bool) (c : Nat) :
    Decidable (EncodedAt m a size f c) := by
  unfold EncodedAt
  exact inferInstance

/-! Further definitions of the embedding (space.rs, free_space.rs,
allocation_data.rs, bucket_list.rs, globals.rs, page.rs, page_list.rs,
lib.rs). -/

/-- Fuel used for tag decoding inside composite operations; tags of any block
below MAX_PAGE_SIZE are at most 7 bytes, so 16 is never exhausted on a
well-formed heap. -/
def TAG_FUEL : Nat := 16

/-- Copy loop of AllocationData::copy_code_block_to_end: writes the tag bytes
read from data_start to the positions ending at data_end, stopping early if
the write position would pass data_end. -/
def cctte_loop : Nat → Mem → Nat → Nat → Nat → Nat → Mem
  | 0, m, _, _, _, _ => m
  | rem + 1, m, ds, de, current, i =>
    if current ≤ de then
      cctte_loop rem (m.write current (m (ds + i))) ds de (current + 1) (i + 1)
    else m

/-- allocation_data.rs copy_code_block_to_end, with the record fields passed
explicitly: mirrors the c tag bytes at data_start into the c bytes ending at
data_end. -/
def copy_code_block_to_end (m : Mem) (data_start data_end c : Nat) : Mem :=
  cctte_loop c m data_start data_end (data_end - c + 1) 0

/-! space.rs -/

/-- space.rs get_start_of_space: first payload byte after the tag. -/
def get_start_of_space (fuel : Nat) (m : Mem) (left_most_end : Nat) : Option Nat :=
  (get_block_size fuel m left_most_end).map (fun c => left_most_end + c)

/-- space.rs get_right_most_end: last byte of the block, computed from the
left tag. -/
def get_right_most_end (fuel : Nat) (m : Mem) (left_most_end : Nat) : Option Nat := do
  let memory_block_size ← read_from_left fuel m left_most_end
  let code_block_size ← get_block_size fuel m left_most_end
  some (left_most_end + 2 * code_block_size + memory_block_size - 1)

/-- space.rs get_left_neighbor: from the last byte of the neighbor, decode
its right tag and step over payload and one tag, the tag size being
recomputed with get_needed_code_block_size rather than read from memory. -/
def get_left_neighbor (fuel : Nat) (m : Mem) (last_byte : Nat) : Option Nat := do
  let (memory_size, left_byte) ← read_from_right fuel m last_byte
  let code_block_size := get_needed_code_block_size memory_size
  some (left_byte - memory_size - code_block_size)

/-! free_space.rs (feature bit32: the next pointer is a 4-byte unsigned
integer in native little-endian order) -/

/-- Sentinel next pointer: just ones in a u32. -/
def ERROR_NEXT_POINTER : Nat := 2 ^ 32 - 1

/-- Little-endian read of a 4-byte unsigned integer. -/
def read32 (m : Mem) (a : Nat) : Nat :=
  m a + 256 * m (a + 1) + 65536 * m (a + 2) + 16777216 * m (a + 3)

/-- Little-endian store of a 4-byte unsigned integer. -/
def store32 (m : Mem) (a v : Nat) : Mem :=
  (((m.write a (v % 256)).write (a + 1) (v / 256 % 256)).write
    (a + 2) (v / 65536 % 256)).write (a + 3) (v / 16777216 % 256)

/-- free_space.rs get_left_next: position of the next pointer after the left
tag. -/
def get_left_next (left_most_end code_block_size : Nat) : Nat :=
  left_most_end + code_block_size

/-- free_space.rs get_right_next: position of the mirrored next pointer just
before the right tag. -/
def get_right_next (fuel : Nat) (m : Mem) (left_most_end code_block_size : Nat) :
    Option Nat :=
  (get_right_most_end fuel m left_most_end).map
    (fun r => r - code_block_size - 4 + 1)

/-- free_space.rs get_next: read the stored next pointer; the sentinel maps
to the null pointer (0), anything else is an offset from start_of_page. -/
def get_next (fuel : Nat) (m : Mem) (left_most_end start_of_page : Nat) :
    Option Nat := do
  let code_block_size ← get_block_size fuel m left_most_end
  let left_next := get_left_next left_most_end code_block_size
  if read32 m left_next = ERROR_NEXT_POINTER then some 0
  else some (start_of_page + read32 m left_next)

/-- free_space.rs set_next: store the offset of next from start_of_page into
the left next-pointer slot, and into the mirrored right slot when the payload
is at least 8 bytes; a null next stores the sentinel in both slots. -/
def set_next (fuel : Nat) (m : Mem) (left_most_end next start_of_page : Nat) :
    Option Mem := do
  let code_block_size ← get_block_size fuel m left_most_end
  let left_next := get_left_next left_most_end code_block_size
  let right_next ← get_right_next fuel m left_most_end code_block_size
  if next = 0 then
    some (store32 (store32 m left_next ERROR_NEXT_POINTER) right_next
      ERROR_NEXT_POINTER)
  else do
    let off ← checkedSub next start_of_page
    let offset := off % 2 ^ 32
    let m1 := store32 m left_next offset
    let size ← read_from_left fuel m1 left_most_end
    if 8 ≤ size then some (store32 m1 right_next offset) else some m1

/-! globals.rs -/

def LAST_LINEAR_4_SCALING : Nat := 32
def LAST_LINEAR_16_SCALING : Nat := 128
def LARGEST_BUCKET_SIZE : Nat := 1024
def LOG2_1024 : Nat := 10
def LOG2_128 : Nat := 7

/-- globals.rs BUCKET_LIST_SIZE, written exactly as the source expression. -/
def BUCKET_LIST_SIZE : Nat :=
  LAST_LINEAR_4_SCALING / 4
    + (LAST_LINEAR_16_SCALING - LAST_LINEAR_4_SCALING + 4) / 16
    + (LOG2_1024 - LOG2_128)
    + 1

def MAX_PAGE_SIZE : Nat := 0x100000000000

/-- globals.rs SMALLEST_POSSIBLE_FREE_SPACE: two one-byte tags plus a 4-byte
next pointer. -/
def SMALLEST_POSSIBLE_FREE_SPACE : Nat := 6

/-- Lookup table of the 64-bit de-Bruijn log2 of globals.rs. -/
def log2_table : List Nat :=
  [63, 0, 58, 1, 59, 47, 53, 2, 60, 39, 48, 27, 54, 33, 42, 3, 61, 51, 37, 40,
   49, 18, 28, 20, 55, 30, 34, 11, 43, 14, 22, 4, 62, 57, 46, 52, 38, 26, 32,
   41, 50, 36, 17, 19, 29, 10, 13, 21, 56, 45, 25, 31, 35, 16, 9, 12, 44, 24,
   15, 8, 23, 7, 6, 5]

/-- globals.rs log2_64 (de-Bruijn): valid for nonzero 64-bit inputs; the
source aborts on zero, which callers never pass. -/
def log2_64 (x : Nat) : Nat :=
  let x1 := x ||| (x >>> 1)
  let x2 := x1 ||| (x1 >>> 2)
  let x3 := x2 ||| (x2 >>> 4)
  let x4 := x3 ||| (x3 >>> 8)
  let x5 := x4 ||| (x4 >>> 16)
  let x6 := x5 ||| (x5 >>> 32)
  log2_table.getD (((x6 - (x6 >>> 1)) * 0x07EDD5E59A4E28C2 % 2 ^ 64) >>> 58) 0

/-- globals.rs log2 on the 64-bit target. -/
def log2 (x : Nat) : Nat := log2_64 x

/-! bucket_list.rs -/

/-- bucket_list.rs lookup_bucket: piecewise size-class index.  For size zero
the source would abort in a debug build; the claims only concern positive
sizes. -/
def lookup_bucket (size : Nat) : Nat :=
  if size ≤ LAST_LINEAR_4_SCALING then (size - 1) / 4
  else if size ≤ LAST_LINEAR_16_SCALING then
    lookup_bucket LAST_LINEAR_4_SCALING + 1 + (size - LAST_LINEAR_4_SCALING - 1) / 16
  else if size ≤ LARGEST_BUCKET_SIZE then
    lookup_bucket LAST_LINEAR_16_SCALING + 1 + log2 (size - 1) - log2 LAST_LINEAR_16_SCALING
  else BUCKET_LIST_SIZE - 1
termination_by size
decreasing_by
  · simp only [LAST_LINEAR_4_SCALING] at *
    omega
  · simp only [LAST_LINEAR_16_SCALING] at *
    omega

/-- Per-page segregated free list: the head-pointer array (0 is the null
pointer) together with the start of the owning page, which stands for the
page back pointer of the source struct. -/
structure BucketList where
  bucket_list : Nat → Nat
  page_start : Nat

/-- Space::read_next modelled from the spec: read W bytes at the payload
start; the sentinel means no successor (null), anything else is an offset
from the page start.  This matches free_space.rs get_next, whose slot sits at
the payload start. -/
def space_read_next (m : Mem) (ptr start_of_page : Nat) : Nat :=
  if read32 m ptr = ERROR_NEXT_POINTER then 0 else start_of_page + read32 m ptr

/-! allocation_data.rs -/

/-- Cached view over a payload region (the Space struct of the missing
space-module revision).  Modelled from the spec: cached pointer, size and
next, each with an explicit unset state; reading an unset field is an
error. -/
structure Space where
  ptr : Option Nat
  size : Option Nat
  next : Option Nat

/-- Page bounds, standing in for the page back pointer held by an
allocation record. -/
structure PageRec where
  start_of_page : Nat
  end_of_page : Nat

/-- allocation_data.rs AllocationData: cached facts about one block; every
field starts unset and reading an unset field aborts (modelled by Option
propagation). -/
structure AllocationData where
  data_start : Option Nat
  data_end : Option Nat
  code_block_size : Option Nat
  space : Space
  page : Option PageRec

/-- AllocationData::new. -/
def AllocationData.new : AllocationData :=
  { data_start := none, data_end := none, code_block_size := none,
    space := { ptr := none, size := none, next := none }, page := none }

/-- allocation_data.rs calculate_data_size: from both ends when cached,
otherwise from the tag (including the source quirk of falling back to
read_from_left for the code-block size). -/
def AllocationData.calculate_data_size (m : Mem) (ad : AllocationData) :
    Option Nat :=
  match ad.data_start with
  | some ds =>
    match ad.data_end with
    | some de => some (de - ds + 1)
    | none => do
      let cbs ← match ad.code_block_size with
        | some c => some c
        | none => read_from_left TAG_FUEL m ds
      let ss ← match ad.space.size with
        | some s => some s
        | none => read_from_left TAG_FUEL m ds
      some (2 * cbs + ss)
  | none => none

/-- code_block.rs generate_code_block_for_payload_size acting on the record:
writes the tag for space.size at data_start, caches the tag size and the
payload pointer. -/
def AllocationData.gcb_payload (m : Mem) (ad : AllocationData) (isfree : Bool) :
    Option (Mem × AllocationData) := do
  let ds ← ad.data_start
  let ss ← ad.space.size
  let r := generate_code_block_for_payload_size m ds ss isfree
  some (r.1, { ad with
    code_block_size := some r.2
    space := { ad.space with ptr := some (ds + r.2) } })

/-- allocation_data.rs write_space_size_code_blocks: encode the cached
payload size, recompute data_end, mirror the tag to the right end. -/
def AllocationData.write_space_size_code_blocks (m : Mem) (ad : AllocationData)
    (is_free : Bool) : Option (Mem × AllocationData) := do
  let (m1, ad1) ← ad.gcb_payload m is_free
  let ds ← ad1.data_start
  let cbs ← ad1.code_block_size
  let ss ← ad1.space.size
  let ad2 := { ad1 with
    space := { ad1.space with ptr := some (ds + cbs) }
    data_end := some (ds + cbs + ss + cbs - 1) }
  let m2 := copy_code_block_to_end m1 ds (ds + cbs + ss + cbs - 1) cbs
  some (m2, ad2)

/-- allocation_data.rs write_data_size_code_blocks: encode the extent from
data_start to data_end as an internal size, mirror the tag, cache payload
pointer and size, and write the next pointer (the cached next or the
sentinel, as Space::write_next of the spec) into the payload. -/
def AllocationData.write_data_size_code_blocks (m : Mem) (ad : AllocationData)
    (is_free : Bool) : Option (Mem × AllocationData) := do
  let ds ← ad.data_start
  let total ← ad.calculate_data_size m
  let (m1, cbs) ← generate_code_block_for_internal_size TAG_FUEL m ds total is_free
  let de ← ad.data_end
  let m2 := copy_code_block_to_end m1 ds de cbs
  let pr ← ad.page
  let nextv := match ad.space.next with
    | some n => n
    | none => 0
  let m3 ← set_next TAG_FUEL m2 ds nextv pr.start_of_page
  some (m3, { ad with
    code_block_size := some cbs
    space := { ad.space with ptr := some (ds + cbs), size := some (total - 2 * cbs) } })

/-- allocation_data.rs read_and_cache_code_blocks: populate the record from
whichever of data_start, space.ptr or data_end is known. -/
def AllocationData.read_and_cache_code_blocks (m : Mem) (ad : AllocationData) :
    Option AllocationData :=
  match ad.data_start with
  | some ds => do
    let sz ← read_from_left TAG_FUEL m ds
    let cbs ← get_block_size TAG_FUEL m ds
    some { ad with
      code_block_size := some cbs
      space := { ad.space with size := some sz, ptr := some (ds + cbs) }
      data_end := some (ds + 2 * cbs + sz) }
  | none =>
    match ad.space.ptr with
    | some sp => do
      let (msz, blk) ← read_from_right TAG_FUEL m sp
      let cbs ← get_block_size TAG_FUEL m blk
      some { ad with
        code_block_size := some cbs
        space := { ad.space with size := some msz }
        data_start := some blk
        data_end := some (blk + 2 * cbs + msz) }
    | none => do
      let de ← ad.data_end
      let (msz, blk) ← read_from_right TAG_FUEL m de
      let cbs ← get_block_size TAG_FUEL m blk
      some { ad with
        code_block_size := some cbs
        space := { ad.space with size := some msz, ptr := some (blk - cbs - msz + cbs) }
        data_start := some (blk - cbs - msz) }

/-- allocation_data.rs right_neighbor: the record that starts one past
data_end, or none when data_end is the last byte of the page.  The outer
Option models aborts, the inner one is the Option of the source. -/
def AllocationData.right_neighbor (m : Mem) (ad : AllocationData) :
    Option (Option AllocationData) := do
  let de ← ad.data_end
  let pr ← ad.page
  if de + 1 < pr.end_of_page then do
    let r ← AllocationData.read_and_cache_code_blocks m
      { AllocationData.new with page := some pr, data_start := some (de + 1) }
    some (some r)
  else some none

/-- allocation_data.rs left_neighbor, translated exactly as written: it
returns a record (read out of the page) when data_start - 1 lies before the
page start, and none otherwise. -/
def AllocationData.left_neighbor (m : Mem) (ad : AllocationData) :
    Option (Option AllocationData) := do
  let ds ← ad.data_start
  let pr ← ad.page
  if ds - 1 < pr.start_of_page then do
    let l ← AllocationData.read_and_cache_code_blocks m
      { AllocationData.new with page := some pr, data_end := some (ds - 1) }
    some (some l)
  else some none

/-! bucket_list.rs insert / remove -/

/-- Iteration state of bucket_list.rs is_in_list, translated literally: on
entry ptr is the bucket head and next is null, and each round moves ptr to
next and refreshes next from memory; a read through the null pointer is an
abort (none). -/
def iil_loop : Nat → Mem → Nat → Nat → Nat → Nat → Option (Bool × Nat)
  | 0, _, _, _, _, _ => none
  | fuel + 1, m, sop, _ptr, nextv, target =>
    let ptr1 := nextv
    if ptr1 = 0 then none
    else
      let next1 := space_read_next m ptr1 sop
      if next1 = 0 ∨ next1 = target then some (next1 ≠ 0, ptr1)
      else iil_loop fuel m sop ptr1 next1 target

/-- bucket_list.rs is_in_list: whether the block whose payload starts at the
space pointer of ad is threaded in its bucket, together with its
predecessor. -/
def BucketList.is_in_list (fuel : Nat) (m : Mem) (bl : BucketList)
    (ad : AllocationData) : Option (Bool × Nat) := do
  let sz ← ad.space.size
  let first := bl.bucket_list (lookup_bucket sz)
  if first = 0 then some (false, 0)
  else do
    let tgt ← ad.space.ptr
    iil_loop fuel m bl.page_start first first tgt

/-- bucket_list.rs remove (delete_from_list): unlink the block from its
bucket, aborting when it is not found. -/
def BucketList.remove (fuel : Nat) (m : Mem) (bl : BucketList)
    (ad : AllocationData) : Option (Mem × BucketList) := do
  let (in_list, pred) ← bl.is_in_list fuel m ad
  if in_list then do
    let sz ← ad.space.size
    let nxt ← ad.space.next
    if pred = 0 then
      some (m, { bl with bucket_list := fun i =>
        if i = lookup_bucket sz then nxt else bl.bucket_list i })
    else do
      let m1 ← set_next TAG_FUEL m pred nxt bl.page_start
      some (m1, bl)
  else none

/-- bucket_list.rs insert (add_to_list): push the block at the head of its
bucket, writing the previous head as its next pointer.  The head pointer
stored in the array is the payload start, recomputed from the tag when the
record has not cached it (Space of the spec). -/
def BucketList.insert (m : Mem) (bl : BucketList) (ad : AllocationData) :
    Option (Mem × BucketList × AllocationData) := do
  let sz ← ad.space.size
  let head := bl.bucket_list (lookup_bucket sz)
  let ds ← ad.data_start
  let m1 ← set_next TAG_FUEL m ds head bl.page_start
  let sptr ← match ad.space.ptr with
    | some p => some p
    | none => get_start_of_space TAG_FUEL m1 ds
  some (m1,
    { bl with bucket_list := fun i =>
        if i = lookup_bucket sz then sptr else bl.bucket_list i },
    { ad with space := { ad.space with next := some head, ptr := some sptr } })

/-! page.rs -/

/-- page.rs split_free_space: splits free_alloc into a left part described by
alloc_data (requested payload size in alloc_data.space.size) and a right
remainder; when the difference is below SMALLEST_POSSIBLE_FREE_SPACE the
remainder gets space size 0 and nothing is written. -/
def Page.split_free_space (m : Mem) (alloc_data free_alloc : AllocationData) :
    Option (Mem × AllocationData × AllocationData) := do
  let fss ← free_alloc.space.size
  let ass ← alloc_data.space.size
  let diff ← checkedSub fss ass
  if diff < SMALLEST_POSSIBLE_FREE_SPACE then
    some (m, alloc_data,
      { free_alloc with space := { free_alloc.space with size := some 0 } })
  else do
    let (m1, ad1) ← alloc_data.write_space_size_code_blocks m false
    let de1 ← ad1.data_end
    let fa1 := { free_alloc with
      page := alloc_data.page
      data_start := some (de1 + 1) }
    let (m2, fa2) ← fa1.write_data_size_code_blocks m1 true
    some (m2, ad1, fa2)

/-- Edge case of page.rs get_dynamic_block when no space remains after the
split: flip the free bit of the whole block to used and mirror the tag to
the right end (the extent is taken from the tag, as in space.rs). -/
def Page.consume_whole_block (m : Mem) (data_start : Nat) : Option Mem := do
  let m1 := set_free m data_start false
  let cbs ← get_block_size TAG_FUEL m1 data_start
  let rme ← get_right_most_end TAG_FUEL m1 data_start
  some (copy_code_block_to_end m1 data_start rme cbs)

/-- page.rs merge_with_right: extend alloc_data to the end of r_alloc and
rewrite the tags; the source stores the tag size into space.size (the bug
noted in the design notes). -/
def Page.merge_with_right (m : Mem) (alloc_data r_alloc : AllocationData) :
    Option (Mem × AllocationData) := do
  let rde ← r_alloc.data_end
  let ad1 := { alloc_data with data_end := some rde }
  let sz ← ad1.calculate_data_size m
  let ds ← ad1.data_start
  let (m1, cbs) ← generate_code_block_for_internal_size TAG_FUEL m ds (sz + 1) true
  let ad2 := { ad1 with space := { ad1.space with size := some cbs } }
  let rme ← get_right_most_end TAG_FUEL m1 ds
  let m2 := copy_code_block_to_end m1 ds rme cbs
  some (m2, ad2)

/-- page.rs merge_with_left: restart alloc_data at the left block and
rewrite the tags. -/
def Page.merge_with_left (m : Mem) (left_block : Nat) (alloc_data : AllocationData) :
    Option (Mem × AllocationData) := do
  let ad1 := { alloc_data with data_start := some left_block }
  let sz ← ad1.calculate_data_size m
  let (m1, cbs) ← generate_code_block_for_internal_size TAG_FUEL m left_block
    (sz + 1) true
  let ad2 := { ad1 with code_block_size := some cbs }
  let rme ← get_right_most_end TAG_FUEL m1 left_block
  let m2 := copy_code_block_to_end m1 left_block rme cbs
  some (m2, ad2)

/-- page.rs merge_free_space: coalesce alloc_data with whichever neighbors
were found free (null data_start means absent), rewrite the tags as free and
insert the result into the bucket list. -/
def Page.merge_free_space (m : Mem) (bl : BucketList)
    (l_alloc alloc_data r_alloc : AllocationData) :
    Option (Mem × BucketList × AllocationData) := do
  let lds ← l_alloc.data_start
  let rds ← r_alloc.data_start
  if lds = 0 then do
    let (m1, bl1, ad1) ←
      if rds ≠ 0 then do
        let (mr, blr) ← bl.remove TAG_FUEL m r_alloc
        let (mr2, adr) ← Page.merge_with_right mr alloc_data r_alloc
        some (mr2, blr, adr)
      else some (m, bl, alloc_data)
    let ads ← ad1.data_start
    let m2 := set_free m1 ads true
    let cbs ← get_block_size TAG_FUEL m2 ads
    let ad2 := { ad1 with code_block_size := some cbs }
    let rme ← get_right_most_end TAG_FUEL m2 ads
    let m3 := copy_code_block_to_end m2 ads rme cbs
    let (m4, bl2, ad3) ← bl1.insert m3 ad2
    some (m4, bl2, ad3)
  else do
    let (m1, bl1, ad1) ←
      if rds ≠ 0 then do
        let (mr, blr) ← bl.remove TAG_FUEL m r_alloc
        let (mr2, adr) ← Page.merge_with_right mr alloc_data r_alloc
        some (mr2, blr, adr)
      else some (m, bl, alloc_data)
    let (m2, bl2) ← bl1.remove TAG_FUEL m1 l_alloc
    let (m3, ad2) ← Page.merge_with_left m2 lds ad1
    let m4 := set_free m3 lds true
    let cbs ← get_block_size TAG_FUEL m4 lds
    let l2 := { l_alloc with code_block_size := some cbs }
    let rme ← get_right_most_end TAG_FUEL m4 lds
    let m5 := copy_code_block_to_end m4 lds rme cbs
    let _ := ad2
    let (m6, bl3, l3) ← bl2.insert m5 l2
    some (m6, bl3, l3)

/-- page.rs delete_block: free the block whose payload starts at the cached
data_start of ad, after locating the neighbors via the boundary tags; free
neighbors and the block are handed to merge_free_space. -/
def Page.delete_block (pr : PageRec) (bl : BucketList) (m : Mem)
    (ad : AllocationData) : Option (Mem × BucketList × AllocationData) := do
  let p ← ad.data_start
  let (memory_block_size, code_block_start) ← read_from_right TAG_FUEL m (p - 1)
  let ad1 := { ad with
    page := some pr
    data_start := some code_block_start
    space := { ad.space with size := some memory_block_size } }
  let code_block_size ← get_block_size TAG_FUEL m code_block_start
  if pr.end_of_page < code_block_start + 2 * code_block_size + memory_block_size then
    none
  else do
    let right0 : AllocationData := { AllocationData.new with
      page := some pr
      data_start := some (code_block_start + 2 * code_block_size + memory_block_size) }
    let left0 : AllocationData ←
      if pr.start_of_page < code_block_start then do
        let ln ← get_left_neighbor TAG_FUEL m (code_block_start - 1)
        some { AllocationData.new with page := some pr, data_start := some ln }
      else some { AllocationData.new with page := some pr }
    let lds ← left0.data_start
    let left1 := if lds ≠ 0 ∧ ¬ is_free m lds then
      { left0 with data_start := some 0 } else left0
    let rds ← right0.data_start
    let right1 := if rds ≠ 0 ∧ (pr.end_of_page ≤ rds ∨ ¬ is_free m rds) then
      { right0 with data_start := some 0 } else right0
    Page.merge_free_space m bl left1 ad1 right1

/-! page_list.rs: the ring of pages.  Page::get_dynamic_block of the matching
revision returns a raw pointer (null for failure); the ring walk is embedded
over an abstract serving function gdb from page address to returned pointer,
which stands for that call. -/

/-- lib.rs MaraError (the variants used by the page ring). -/
inductive MaraError where
  | outOfMemory
  | outOfPages
  deriving DecidableEq, Repr

/-- page_list.rs PageList: ring of pages carved from the backing buffer. -/
structure PageRing where
  first_page : Nat
  next_page : Nat → Nat
  page_count : Nat
  list_memory_size : Nat
  data : Nat
  data_size : Nat
  page_size : Nat

/-- page_list.rs add_page_to_list: bump-allocate the next page from the
backing buffer and link it after current_page. -/
def PageRing.add_page_to_list (pl : PageRing) (current_page : Nat) :
    Except MaraError PageRing :=
  if pl.page_count < pl.list_memory_size then
    let offset := pl.page_count * pl.page_size
    if pl.data_size ≤ offset + pl.page_size then Except.error MaraError.outOfMemory
    else
      let np := pl.data + offset
      Except.ok { pl with
        page_count := pl.page_count + 1
        next_page := fun x =>
          if x = np then pl.next_page current_page
          else if x = current_page then np
          else pl.next_page x }
  else Except.error MaraError.outOfPages

/-- page_list.rs iterate_page: step to the next page, appending a fresh page
when the ring has been fully traversed. -/
def PageRing.iterate_page (pl : PageRing) (current_page : Nat) :
    Except MaraError (PageRing × Nat) :=
  if pl.next_page current_page = pl.first_page then
    match pl.add_page_to_list current_page with
    | Except.error e => Except.error e
    | Except.ok pl2 => Except.ok (pl2, pl2.next_page current_page)
  else Except.ok (pl, pl.next_page current_page)

/-- Outcome of page_list.rs dynamic_new: either the loop breaks with a null
return_block and the subsequent get_start_of_space dereferences the null
pointer, or the function returns a pointer value (0 for null). -/
inductive DynNewResult where
  | nullDeref
  | returned (pl : PageRing) (ptr : Nat)

/-- Loop of page_list.rs dynamic_new, translated exactly as written: it
breaks when the current page FAILS to produce a block, and iterates the ring
(appending pages) while the page keeps succeeding; current_page is never
reassigned. -/
def PageRing.dynamic_new_loop (gdb : Nat → Nat) :
    Nat → PageRing → Nat → Option DynNewResult
  | 0, _, _ => none
  | fuel + 1, pl, current_page =>
    let return_block := gdb current_page
    if return_block = 0 then some DynNewResult.nullDeref
    else
      match pl.iterate_page current_page with
      | Except.error _ => some (DynNewResult.returned pl 0)
      | Except.ok (pl2, _) => PageRing.dynamic_new_loop gdb fuel pl2 current_page

/-- page_list.rs dynamic_new: walk the ring starting at first_page. -/
def PageRing.dynamic_new (gdb : Nat → Nat) (fuel : Nat) (pl : PageRing) :
    Option DynNewResult :=
  PageRing.dynamic_new_loop gdb fuel pl pl.first_page

/-! lib.rs Mara::new -/

/-- Outcome of the page-count fixpoint loop in Mara::new. -/
inductive MaraLoopResult where
  | underflow
  | fixpoint (max_pages page_object_data_size : Nat)
  deriving DecidableEq, Repr

/-- size_of::<Page>() on the 64-bit target: 22 pointer-sized fields (three
page pointers, 18 bucket heads, one page back pointer). -/
def size_of_page : Nat := 176

/-- Loop of lib.rs Mara::new: decrement max_pages and page_object_data_size
until (data_size - page_object_data_size) / page_size equals max_pages; a
usize underflow aborts. -/
def mara_new_loop : Nat → Nat → Nat → Nat → Nat → Option MaraLoopResult
  | 0, _, _, _, _ => none
  | fuel + 1, ps, ds, mp, pods =>
    match checkedSub ds pods with
    | none => some MaraLoopResult.underflow
    | some rem =>
      if rem / ps = mp then some (MaraLoopResult.fixpoint mp pods)
      else
        match mp, pods with
        | 0, _ => some MaraLoopResult.underflow
        | _ + 1, 0 => some MaraLoopResult.underflow
        | mp2 + 1, pods2 + 1 => mara_new_loop fuel ps ds mp2 pods2

/-- Overall outcome of lib.rs Mara::new: an abort, the NotEnoughMemory
error, or an allocator with the computed page capacity. -/
inductive MaraNewOutcome where
  | panic
  | errNotEnoughMemory
  | okAllocator (max_pages : Nat)
  deriving DecidableEq, Repr

/-- lib.rs Mara::new: page-count loop, then the NotEnoughMemory check, then
the PageList constructor (whose own subtraction data_size - list_memory_size
is the remaining fallible arithmetic). -/
def Mara.new (fuel ps ds : Nat) : Option MaraNewOutcome :=
  if ps = 0 then some MaraNewOutcome.panic
  else
    match mara_new_loop fuel ps ds (ds / ps) (ds / ps * size_of_page) with
    | none => none
    | some MaraLoopResult.underflow => some MaraNewOutcome.panic
    | some (MaraLoopResult.fixpoint mp _) =>
      if mp = 0 then some MaraNewOutcome.errNotEnoughMemory
      else
        match checkedSub ds mp with
        | none => some MaraNewOutcome.panic
        | some _ => some (MaraNewOutcome.okAllocator mp)

/-! Concrete memories for evaluating the theorems on closed inputs. -/

/-- One free block with a single-byte tag (payload 8) at address 0. -/
def mem_c7 : Mem := fun x => if x = 0 then 200 else 0

/-- All-zero memory. -/
def mem_zero : Mem := fun _ => 0

/-- A used tag for payload 4 written at address 0 of the zero memory. -/
def c5_pair : Mem × Nat := generate_code_block_for_payload_size mem_zero 0 4 true

/-- The same block after the tag has been mirrored to its right end. -/
def c5_m2 : Mem :=
  copy_code_block_to_end c5_pair.1 0 (0 + 2 * c5_pair.2 + 4 - 1) c5_pair.2

/-- One free block with a two-byte tag (payload 96) at address 0,
mirrored at bytes 98 and 99. -/
def c2_mem : Mem :=
  fun x => if x = 0 then 64 else if x = 1 then 96
    else if x = 98 then 64 else if x = 99 then 96 else 0

/-- The returned pointer of a dynamic_new outcome (none stands for the
null-pointer dereference in get_start_of_space after the loop breaks). -/
def dyn_result_ptr : DynNewResult → Option Nat
  | DynNewResult.nullDeref => none
  | DynNewResult.returned _ ptr => some ptr

/-- A ring of one page that can always serve requests. -/
def c1_ring : PageRing :=
  { first_page := 1000, next_page := fun _ => 1000, page_count := 1,
    list_memory_size := 1, data := 1000, data_size := 5000, page_size := 1000 }

/-- A page [0,99] holding a free block of payload 62 (two-byte tags) at 0
followed by a used block of payload 31 (one-byte tags) at 66. -/
def c3_mem : Mem :=
  fun x => if x = 0 then 64 else if x = 1 then 62
    else if x = 64 then 64 else if x = 65 then 62
    else if x = 66 then 159 else if x = 98 then 159 else 0

def c3_page : PageRec := { start_of_page := 0, end_of_page := 99 }

def c3_bl : BucketList := { bucket_list := fun _ => 0, page_start := 0 }

/-- The record free() builds for the used block: its payload pointer. -/
def c3_ad : AllocationData := { AllocationData.new with data_start := some 67 }

def c8_page : PageRec := { start_of_page := 100, end_of_page := 200 }

/-- An interior record of the page (its data_start is well inside). -/
def c8_interior : AllocationData :=
  { AllocationData.new with page := some c8_page, data_start := some 120 }

/-- A record at the very start of the page. -/
def c8_boundary : AllocationData :=
  { AllocationData.new with page := some c8_page, data_start := some 100 }

/-- Used one-byte tags (payload 31) at 99 and 119: a decodable block ends
right before each of the two c8 records. -/
def c8_mem : Mem := fun x => if x = 99 then 159 else if x = 119 then 159 else 0

/-! ## Theorems -/

@[simp] theorem Mem.write_same (m : Mem) (a v : Nat) : (m.write a v) a = v := by
  simp [Mem.write]

theorem Mem.write_other (m : Mem) (a v x : Nat) (h : x ≠ a) :
    (m.write a v) x = m x := by
  simp [Mem.write, h]

/-! ## Arithmetic toolbox for the codec proofs -/

theorem fbit_lt (f : Bool) : fbit f < 65 := by cases f <;> simp [fbit]

/-- Bitwise or of a shifted value with a small value is addition. -/
theorem lor_pow_add (a d n : Nat) (hd : d < 2 ^ n) :
    (a * 2 ^ n) ||| d = a * 2 ^ n + d := by
  apply Nat.eq_of_testBit_eq
  intro i
  rw [Nat.testBit_lor]
  have hmul : a * 2 ^ n = 2 ^ n * a := Nat.mul_comm _ _
  rw [hmul, Nat.testBit_mul_pow_two_add a hd i]
  by_cases hi : i < n
  · have h1 : (2 ^ n * a).testBit i = false := by
      rw [Nat.mul_comm, ← Nat.shiftLeft_eq, Nat.testBit_shiftLeft]
      simp [Nat.not_le.mpr hi]
    simp [hi, h1]
  · have h2 : d.testBit i = false := by
      apply Nat.testBit_eq_false_of_lt
      exact lt_of_lt_of_le hd (Nat.pow_le_pow_right (by norm_num) (Nat.not_lt.mp hi))
    have h3 : (2 ^ n * a).testBit i = a.testBit (i - n) := by
      rw [Nat.mul_comm, ← Nat.shiftLeft_eq, Nat.testBit_shiftLeft]
      simp [Nat.not_lt.mp hi]
    simp [hi, h2, h3]

/-- Variant of lor_pow_add with the small value on the left. -/
theorem lor_pow_add_left (a d n : Nat) (hd : d < 2 ^ n) :
    d ||| (a * 2 ^ n) = a * 2 ^ n + d := by
  rw [Nat.lor_comm]; exact lor_pow_add a d n hd

theorem and_127_eq_mod (x : Nat) : x &&& 127 = x % 128 := by
  have h := Nat.and_pow_two_sub_one_eq_mod x 7
  norm_num at h
  exact h

theorem and_63_eq_mod (x : Nat) : x &&& 63 = x % 64 := by
  have h := Nat.and_pow_two_sub_one_eq_mod x 6
  norm_num at h
  exact h

theorem and_128_of_lt {b : Nat} (h : b < 128) : b &&& 128 = 0 := by
  have h1 : b &&& 128 = (b.testBit 7).toNat * 2 ^ 7 := Nat.and_two_pow b 7
  have h2 : b.testBit 7 = false := Nat.testBit_eq_false_of_lt (by norm_num at h ⊢; exact h)
  simp [h1, h2]

theorem and_128_of_ge {b : Nat} (h1 : 128 ≤ b) (h2 : b < 256) : b &&& 128 = 128 := by
  have h3 : b &&& 128 = (b.testBit 7).toNat * 2 ^ 7 := Nat.and_two_pow b 7
  have h4 : b.testBit 7 = true := by
    rw [Nat.testBit_to_div_mod]
    have h : b / 2 ^ 7 = 1 := by norm_num; omega
    norm_num at h ⊢
    omega
  simp [h3, h4]

theorem and_64_of_lt {b : Nat} (h : b < 64) : b &&& 64 = 0 := by
  have h1 : b &&& 64 = (b.testBit 6).toNat * 2 ^ 6 := Nat.and_two_pow b 6
  have h2 : b.testBit 6 = false := Nat.testBit_eq_false_of_lt (by norm_num at h ⊢; exact h)
  simp [h1, h2]

set_option linter.unnecessarySeqFocus false in
/-- The free-bit test on a byte of the form low + 128 k + fbit with low below
64: it recovers the flag. -/
theorem and_64_decompose (low k : Nat) (f : Bool) (hlow : low < 64) :
    (low + 128 * k + fbit f) &&& 64 = fbit f := by
  have h1 : (low + 128 * k + fbit f) &&& 64
      = ((low + 128 * k + fbit f).testBit 6).toNat * 2 ^ 6 :=
    Nat.and_two_pow _ 6
  have h2 : (low + 128 * k + fbit f).testBit 6 = f := by
    rw [Nat.testBit_to_div_mod]
    have h3 : (low + 128 * k + fbit f) / 2 ^ 6 = 2 * k + (fbit f) / 64 := by
      cases f <;> simp [fbit] <;> omega
    rw [h3]
    cases f <;> simp [fbit] <;> omega
  rw [h1, h2]
  cases f <;> simp [fbit]

theorem gcb2_mid_succ (fuel : Nat) (m : Mem) (a current size : Nat) (isfree : Bool) :
    gcb2_mid (fuel + 1) m a current size isfree =
      if current = a then set_free (m.write a (size &&& 63)) a isfree
      else gcb2_mid fuel (m.write current ((size &&& 127) ||| SIZE_BIT)) a
        (current - 1) (size >>> 7) isfree := rfl

theorem read_left_loop_succ (fuel : Nat) (m : Mem) (current size : Nat) :
    read_left_loop (fuel + 1) m current size =
      if 0 < m current &&& SIZE_BIT then
        read_left_loop fuel m (current + 1) ((size ||| (m current &&& 127)) <<< 7)
      else some (size ||| (m current &&& 127)) := rfl

theorem read_right_loop_succ (fuel : Nat) (m : Mem) (current size mshift : Nat) :
    read_right_loop (fuel + 1) m current size mshift =
      if 0 < m current &&& SIZE_BIT then
        read_right_loop fuel m (current - 1)
          (size ||| ((m current &&& 127) <<< (7 * mshift))) (mshift + 1)
      else some (size ||| ((m current &&& 63) <<< (7 * mshift)), current) := rfl

theorem get_block_size_loop_succ (fuel : Nat) (m : Mem) (current size : Nat) :
    get_block_size_loop (fuel + 1) m current size =
      if 0 < m current &&& SIZE_BIT then get_block_size_loop fuel m (current + 1) (size + 1)
      else some size := rfl

set_option maxRecDepth 4000 in
theorem byte_or_64 : ∀ b, b < 256 → b ||| 64 = b % 64 + 128 * (b / 128) + 64 := by
  decide

set_option maxRecDepth 4000 in
theorem byte_and_191 : ∀ b, b < 256 → b &&& 191 = b % 64 + 128 * (b / 128) := by
  decide

/-- Writing the free bit into a byte: the low six bits and the top bit are
kept, bit six becomes the flag. -/
theorem set_free_byte (m : Mem) (a low : Nat) (hm : m a = low) (hlow : low < 256)
    (f : Bool) :
    (set_free m a f) a = low % 64 + 128 * (low / 128) + fbit f := by
  cases f with
  | true =>
    show (m.write a (m a ||| FREE_BIT)) a = _
    rw [Mem.write_same, hm]
    show low ||| 64 = _ + fbit true
    rw [byte_or_64 low hlow]
    simp [fbit]
  | false =>
    show (m.write a (m a &&& 191)) a = _
    rw [Mem.write_same, hm, byte_and_191 low hlow]
    simp [fbit]

theorem set_free_other (m : Mem) (a : Nat) (f : Bool) (x : Nat) (h : x ≠ a) :
    (set_free m a f) x = m x := by
  cases f with
  | true => simp [set_free, Mem.write, h]
  | false => simp [set_free, Mem.write, h]

/-! ## Shape of an encoded boundary tag

EncodedAt m a size f c states that the c bytes starting at a hold exactly the
boundary-tag encoding of (size, f) produced by the codec.  The same predicate
at the address of the mirrored right tag describes the right end of a
block. -/

theorem EncodedAt_one (m : Mem) (a size : Nat) (f : Bool) :
    EncodedAt m a size f 1 ↔ size < 64 ∧ m a = size + 128 + fbit f := by
  simp [EncodedAt]

theorem EncodedAt_ge2 (m : Mem) (a size : Nat) (f : Bool) (c : Nat) (hc : c ≠ 1) :
    EncodedAt m a size f c ↔
      2 ≤ c ∧ size < 2 ^ (6 + 7 * (c - 1)) ∧
      m a = size >>> (7 * (c - 1)) + fbit f ∧
      (∀ j, j < c - 1 → 1 ≤ j → m (a + j) = (size >>> (7 * (c - 1 - j))) % 128 + 128) ∧
      m (a + (c - 1)) = size % 128 := by
  simp [EncodedAt, hc]

theorem gcb2_one (m : Mem) (a size : Nat) (f : Bool) :
    generate_code_block_for_payload_size2 m a size f 1 =
      set_free (m.write a (size ||| SIZE_BIT)) a f := by
  simp [generate_code_block_for_payload_size2]

theorem gcb2_multi (m : Mem) (a size : Nat) (f : Bool) (c : Nat) (hc : c ≠ 1) :
    generate_code_block_for_payload_size2 m a size f c =
      gcb2_mid (c - 1) (m.write (a + c - 1) (size &&& 127)) a (a + c - 2)
        (size >>> 7) f := by
  simp [generate_code_block_for_payload_size2, hc]

/-- Bytes of the result of the write loop gcb2_mid entered at position a + k
with fuel k + 1: the first byte carries the high bits and the free bit, the
bytes above carry 7-bit groups with the continuation bit, and nothing outside
the range a..a+k is written. -/
theorem gcb2_mid_bytes (k : Nat) : ∀ (m : Mem) (a s : Nat) (f : Bool),
    (gcb2_mid (k + 1) m a (a + k) s f) a = (s >>> (7 * k)) % 64 + fbit f ∧
    (∀ j, 1 ≤ j → j ≤ k →
      (gcb2_mid (k + 1) m a (a + k) s f) (a + j) = (s >>> (7 * (k - j))) % 128 + 128) ∧
    (∀ x, x < a ∨ a + k < x → (gcb2_mid (k + 1) m a (a + k) s f) x = m x) := by
  induction k with
  | zero =>
    intro m a s f
    simp only [Nat.add_zero, Nat.mul_zero, Nat.shiftRight_zero]
    rw [gcb2_mid_succ, if_pos rfl]
    refine ⟨?_, ?_, ?_⟩
    · have hw : (m.write a (s &&& 63)) a = s % 64 := by
        rw [Mem.write_same, and_63_eq_mod]
      rw [set_free_byte _ _ _ hw (by omega) f]
      omega
    · intro j h1 h2; omega
    · intro x hx
      have hxa : x ≠ a := by omega
      rw [set_free_other _ _ _ _ hxa]
      exact Mem.write_other _ _ _ _ hxa
  | succ k ih =>
    intro m a s f
    have hne : a + (k + 1) ≠ a := by omega
    rw [gcb2_mid_succ, if_neg hne]
    have harg : a + (k + 1) - 1 = a + k := by omega
    rw [harg]
    set m1 : Mem := m.write (a + (k + 1)) ((s &&& 127) ||| SIZE_BIT) with hm1
    obtain ⟨hfirst, hmid, hframe⟩ := ih m1 a (s >>> 7) f
    refine ⟨?_, ?_, ?_⟩
    · rw [hfirst]
      have he : 7 + 7 * k = 7 * (k + 1) := by ring
      rw [← Nat.shiftRight_add, he]
    · intro j h1 h2
      rcases Nat.lt_or_ge j (k + 1) with hj | hj
      · have h2k : j ≤ k := by omega
        rw [hmid j h1 h2k]
        have he : 7 + 7 * (k - j) = 7 * (k + 1 - j) := by omega
        rw [← Nat.shiftRight_add, he]
      · have hj1 : j = k + 1 := by omega
        subst hj1
        rw [hframe (a + (k + 1)) (by omega), hm1, Mem.write_same]
        have hz : k + 1 - (k + 1) = 0 := by omega
        rw [hz, Nat.mul_zero, Nat.shiftRight_zero, and_127_eq_mod]
        have h2 : (s % 128) ||| SIZE_BIT = 128 + s % 128 := by
          rw [Nat.lor_comm]
          have h3 := lor_pow_add 1 (s % 128) 7
            (by norm_num; exact Nat.mod_lt _ (by norm_num))
          norm_num at h3
          simp only [SIZE_BIT]
          exact h3
        rw [h2]
        omega
    · intro x hx
      rw [hframe x (by omega)]
      rw [hm1]
      exact Mem.write_other _ _ _ _ (by omega)

/-- generate_code_block_for_payload_size2 writes exactly the encoding of
(size, f) with the requested tag size and leaves all other bytes alone. -/
theorem gcb2_encodes (m : Mem) (a size : Nat) (f : Bool) (c : Nat)
    (hc : 1 ≤ c) (hfit : if c = 1 then size < 64 else size < 2 ^ (6 + 7 * (c - 1))) :
    EncodedAt (generate_code_block_for_payload_size2 m a size f c) a size f c ∧
    (∀ x, x < a ∨ a + (c - 1) < x →
      (generate_code_block_for_payload_size2 m a size f c) x = m x) := by
  by_cases h1 : c = 1
  · subst h1
    have hfit1 : size < 64 := by simpa using hfit
    rw [gcb2_one]
    have h2 : size ||| SIZE_BIT = size + 128 := by
      rw [Nat.lor_comm]
      have h3 := lor_pow_add 1 size 7 (by norm_num; omega)
      norm_num at h3
      simp only [SIZE_BIT]
      rw [h3]
      omega
    constructor
    · rw [EncodedAt_one]
      refine ⟨hfit1, ?_⟩
      have hw : (m.write a (size ||| SIZE_BIT)) a = size + 128 := by
        rw [Mem.write_same, h2]
      rw [set_free_byte _ _ _ hw (by omega) f]
      have ha : (size + 128) % 64 = size := by omega
      have hb : (size + 128) / 128 = 1 := by omega
      rw [ha, hb]
    · intro x hx
      have hxa : x ≠ a := by omega
      rw [set_free_other _ _ _ _ hxa]
      exact Mem.write_other _ _ _ _ hxa
  · have hc2 : 2 ≤ c := by omega
    rw [if_neg h1] at hfit
    rw [gcb2_multi m a size f c h1]
    have harg : a + c - 2 = a + (c - 2) := by omega
    rw [harg]
    have hk : c - 2 + 1 = c - 1 := by omega
    set m1 : Mem := m.write (a + c - 1) (size &&& 127) with hm1
    have hbytes := gcb2_mid_bytes (c - 2) m1 a (size >>> 7) f
    rw [hk] at hbytes
    obtain ⟨hfirst, hmid, hframe⟩ := hbytes
    constructor
    · rw [EncodedAt_ge2 _ _ _ _ _ h1]
      refine ⟨hc2, hfit, ?_, ?_, ?_⟩
      · rw [hfirst]
        have hcomp : size >>> 7 >>> (7 * (c - 2)) = size >>> (7 * (c - 1)) := by
          rw [← Nat.shiftRight_add]
          congr 1
          omega
        rw [hcomp]
        have hlt : size >>> (7 * (c - 1)) < 64 := by
          rw [Nat.shiftRight_eq_div_pow]
          rw [Nat.div_lt_iff_lt_mul (Nat.pos_pow_of_pos _ (by norm_num))]
          calc size < 2 ^ (6 + 7 * (c - 1)) := hfit
          _ = 64 * 2 ^ (7 * (c - 1)) := by rw [pow_add]; norm_num
        rw [Nat.mod_eq_of_lt hlt]
      · intro j hj h1j
        rcases Nat.lt_or_ge j (c - 1) with hjx | hjx
        · have h2k : j ≤ c - 2 := by omega
          rw [hmid j h1j h2k]
          have hcomp : size >>> 7 >>> (7 * (c - 2 - j)) = size >>> (7 * (c - 1 - j)) := by
            rw [← Nat.shiftRight_add]
            congr 1
            omega
          rw [hcomp]
        · omega
      · rw [hframe (a + (c - 1)) (by omega)]
        have hx : a + (c - 1) = a + c - 1 := by omega
        rw [hx, hm1, Mem.write_same, and_127_eq_mod]
    · intro x hx
      rw [hframe x (by omega)]
      rw [hm1]
      exact Mem.write_other _ _ _ _ (by omega)

/-! ## Decoding an encoded tag -/

theorem mod_pow_div_mod (v s T : Nat) (h : s + 7 ≤ T) :
    (v % 2 ^ T) / 2 ^ s % 128 = v / 2 ^ s % 128 := by
  have hT : 2 ^ T = 2 ^ s * 2 ^ (T - s) := by
    rw [← pow_add]
    congr 1
    omega
  rw [hT, Nat.mod_mul_right_div_self]
  have hd : (128 : Nat) ∣ 2 ^ (T - s) :=
    ⟨2 ^ (T - s - 7), by rw [show (128 : Nat) = 2 ^ 7 by norm_num, ← pow_add]; congr 1; omega⟩
  exact Nat.mod_mod_of_dvd _ hd

theorem shiftRight_lt_of_lt (v k b : Nat) (h : v < 2 ^ (b + k)) : v >>> k < 2 ^ b := by
  rw [Nat.shiftRight_eq_div_pow]
  rw [Nat.div_lt_iff_lt_mul (Nat.pos_pow_of_pos _ (by norm_num))]
  calc v < 2 ^ (b + k) := h
  _ = 2 ^ b * 2 ^ k := pow_add 2 b k

/-- Correctness of the left-to-right decode loop on the byte shape produced
by the encoder: the accumulator has its low seven bits clear and the result
appends the remaining 7-bit groups. -/
theorem read_left_loop_spec :
    ∀ k, 1 ≤ k → ∀ fuel, k ≤ fuel → ∀ (m : Mem) (cur acc v : Nat),
    v < 2 ^ (7 * k) → 2 ^ 7 ∣ acc →
    (∀ j, j + 1 < k → m (cur + j) = (v >>> (7 * (k - 1 - j))) % 128 + 128) →
    m (cur + (k - 1)) = v % 128 →
    read_left_loop fuel m cur acc = some (acc * 2 ^ (7 * (k - 1)) + v) := by
  intro k
  induction k with
  | zero => omega
  | succ k ih =>
    intro _ fuel hfuel m cur acc v hv hacc hmid hlast
    obtain ⟨fuel, rfl⟩ : ∃ fuel', fuel = fuel' + 1 := ⟨fuel - 1, by omega⟩
    obtain ⟨q, rfl⟩ := hacc
    rcases Nat.eq_zero_or_pos k with hk0 | hk1
    · subst hk0
      norm_num at hlast hv
      have hcur : m cur = v := by
        rw [hlast, Nat.mod_eq_of_lt (by omega)]
      rw [read_left_loop_succ]
      have hand : m cur &&& SIZE_BIT = 0 := by
        rw [hcur]
        exact and_128_of_lt (by omega)
      rw [hand, if_neg (by omega)]
      rw [hcur, and_127_eq_mod, Nat.mod_eq_of_lt (by omega)]
      rw [Nat.mul_comm (2 ^ 7) q, lor_pow_add q v 7 (by omega)]
      norm_num
    · rw [Nat.mul_comm (2 ^ 7) q]
      have hcur : m cur = (v >>> (7 * k)) % 128 + 128 := by
        have := hmid 0 (by omega)
        simpa using this
      have hsh : v >>> (7 * k) < 2 ^ 7 := by
        apply shiftRight_lt_of_lt v (7 * k) 7
        calc v < 2 ^ (7 * (k + 1)) := hv
        _ = 2 ^ (7 + 7 * k) := by congr 1; ring
      have hmod : (v >>> (7 * k)) % 128 = v >>> (7 * k) :=
        Nat.mod_eq_of_lt (by norm_num at hsh ⊢; omega)
      rw [read_left_loop_succ]
      have hand : m cur &&& SIZE_BIT = 128 := by
        rw [hcur]
        exact and_128_of_ge (by omega) (by norm_num at hsh ⊢; omega)
      rw [hand, if_pos (by omega)]
      have hand127 : m cur &&& 127 = v >>> (7 * k) := by
        rw [hcur, and_127_eq_mod]
        omega
      rw [hand127]
      have hlor : q * 2 ^ 7 ||| v >>> (7 * k) = q * 2 ^ 7 + v >>> (7 * k) :=
        lor_pow_add q _ 7 hsh
      rw [hlor]
      have happ := ih hk1 fuel (by omega) m (cur + 1)
        ((q * 2 ^ 7 + v >>> (7 * k)) <<< 7) (v % 2 ^ (7 * k))
        (Nat.mod_lt _ (Nat.pos_pow_of_pos _ (by norm_num)))
        ⟨q * 2 ^ 7 + v >>> (7 * k), by rw [Nat.shiftLeft_eq]; ring⟩
        ?_ ?_
      · rw [happ]
        congr 1
        have hk1e : k + 1 - 1 = k := by omega
        rw [hk1e, Nat.shiftLeft_eq, Nat.shiftRight_eq_div_pow]
        have hA : (2 : Nat) ^ 7 * 2 ^ (7 * (k - 1)) = 2 ^ (7 * k) := by
          rw [← pow_add]
          congr 1
          omega
        calc (q * 2 ^ 7 + v / 2 ^ (7 * k)) * 2 ^ 7 * 2 ^ (7 * (k - 1))
              + v % 2 ^ (7 * k)
            = (q * 2 ^ 7 + v / 2 ^ (7 * k)) * (2 ^ 7 * 2 ^ (7 * (k - 1)))
              + v % 2 ^ (7 * k) := by ring
        _ = (q * 2 ^ 7 + v / 2 ^ (7 * k)) * 2 ^ (7 * k) + v % 2 ^ (7 * k) := by rw [hA]
        _ = q * 2 ^ 7 * 2 ^ (7 * k) + (2 ^ (7 * k) * (v / 2 ^ (7 * k)) + v % 2 ^ (7 * k)) := by
              ring
        _ = q * 2 ^ 7 * 2 ^ (7 * k) + v := by rw [Nat.div_add_mod]
      · intro j hj
        have hj1 := hmid (j + 1) (by omega)
        have haddr : cur + 1 + j = cur + (j + 1) := by ring
        rw [haddr, hj1]
        have hidx : k + 1 - 1 - (j + 1) = k - 1 - j := by omega
        rw [hidx]
        rw [Nat.shiftRight_eq_div_pow, Nat.shiftRight_eq_div_pow]
        rw [mod_pow_div_mod v (7 * (k - 1 - j)) (7 * k) (by omega)]
      · have haddr : cur + 1 + (k - 1) = cur + (k + 1 - 1) := by omega
        rw [haddr, hlast]
        have hd : (128 : Nat) ∣ 2 ^ (7 * k) :=
          ⟨2 ^ (7 * k - 7), by
            rw [show (128 : Nat) = 2 ^ 7 by norm_num, ← pow_add]
            congr 1
            omega⟩
        rw [Nat.mod_mod_of_dvd _ hd]

/-- read_from_left decodes an encoded tag back to its payload size. -/
theorem read_from_left_of_encoded (m : Mem) (a size : Nat) (f : Bool) (c fuel : Nat)
    (henc : EncodedAt m a size f c) (hfuel : c ≤ fuel) :
    read_from_left fuel m a = some size := by
  by_cases h1 : c = 1
  · subst h1
    rw [EncodedAt_one] at henc
    obtain ⟨hs, hb⟩ := henc
    unfold read_from_left
    have hand : m a &&& SIZE_BIT = 128 := by
      rw [hb]
      exact and_128_of_ge (by omega) (by have := fbit_lt f; omega)
    rw [hand, if_pos (by omega), hb, and_63_eq_mod]
    congr 1
    cases f <;> simp [fbit] <;> omega
  · rw [EncodedAt_ge2 _ _ _ _ _ h1] at henc
    obtain ⟨hc2, hfit, hfirst, hmid, hlast⟩ := henc
    have hshlt : size >>> (7 * (c - 1)) < 64 :=
      shiftRight_lt_of_lt size (7 * (c - 1)) 6 hfit
    unfold read_from_left
    have hand : m a &&& SIZE_BIT = 0 := by
      rw [hfirst]
      exact and_128_of_lt (by have := fbit_lt f; omega)
    rw [hand, if_neg (by omega)]
    have hand63 : m a &&& 63 = size >>> (7 * (c - 1)) := by
      rw [hfirst, and_63_eq_mod]
      cases f <;> simp [fbit] <;> omega
    rw [hand63]
    have happ := read_left_loop_spec (c - 1) (by omega) fuel (by omega) m (a + 1)
      ((size >>> (7 * (c - 1))) <<< 7) (size % 2 ^ (7 * (c - 1)))
      (Nat.mod_lt _ (Nat.pos_pow_of_pos _ (by norm_num)))
      ⟨size >>> (7 * (c - 1)), by rw [Nat.shiftLeft_eq]; ring⟩
      ?_ ?_
    · rw [happ]
      congr 1
      rw [Nat.shiftLeft_eq, Nat.shiftRight_eq_div_pow]
      have hA : (2 : Nat) ^ 7 * 2 ^ (7 * (c - 1 - 1)) = 2 ^ (7 * (c - 1)) := by
        rw [← pow_add]
        congr 1
        omega
      calc size / 2 ^ (7 * (c - 1)) * 2 ^ 7 * 2 ^ (7 * (c - 1 - 1))
            + size % 2 ^ (7 * (c - 1))
          = size / 2 ^ (7 * (c - 1)) * (2 ^ 7 * 2 ^ (7 * (c - 1 - 1)))
            + size % 2 ^ (7 * (c - 1)) := by ring
      _ = 2 ^ (7 * (c - 1)) * (size / 2 ^ (7 * (c - 1))) + size % 2 ^ (7 * (c - 1)) := by
            rw [hA]; ring
      _ = size := Nat.div_add_mod _ _
    · intro j hj
      have hj1 := hmid (j + 1) (by omega) (by omega)
      have haddr : a + 1 + j = a + (j + 1) := by ring
      rw [haddr, hj1]
      have hidx : c - 1 - (j + 1) = c - 1 - 1 - j := by omega
      rw [hidx]
      rw [Nat.shiftRight_eq_div_pow, Nat.shiftRight_eq_div_pow]
      rw [mod_pow_div_mod size (7 * (c - 1 - 1 - j)) (7 * (c - 1)) (by omega)]
    · have haddr : a + 1 + (c - 1 - 1) = a + (c - 1) := by omega
      rw [haddr, hlast]
      have hd : (128 : Nat) ∣ 2 ^ (7 * (c - 1)) :=
        ⟨2 ^ (7 * (c - 1) - 7), by
          rw [show (128 : Nat) = 2 ^ 7 by norm_num, ← pow_add]
          congr 1
          omega⟩
      rw [Nat.mod_mod_of_dvd _ hd]

/-- is_free reads the flag of an encoded tag. -/
theorem is_free_of_encoded (m : Mem) (a size : Nat) (f : Bool) (c : Nat)
    (henc : EncodedAt m a size f c) : is_free m a = f := by
  by_cases h1 : c = 1
  · subst h1
    rw [EncodedAt_one] at henc
    obtain ⟨hs, hb⟩ := henc
    unfold is_free
    simp only [FREE_BIT]
    rw [hb, show size + 128 + fbit f = size + 128 * 1 + fbit f by ring]
    simp only [and_64_decompose size 1 f hs]
    cases f <;> simp [fbit]
  · rw [EncodedAt_ge2 _ _ _ _ _ h1] at henc
    obtain ⟨hc2, hfit, hfirst, hmid, hlast⟩ := henc
    have hshlt : size >>> (7 * (c - 1)) < 64 :=
      shiftRight_lt_of_lt size (7 * (c - 1)) 6 hfit
    unfold is_free
    simp only [FREE_BIT]
    rw [hfirst, show size >>> (7 * (c - 1)) + fbit f
      = size >>> (7 * (c - 1)) + 128 * 0 + fbit f by ring]
    simp only [and_64_decompose _ 0 f hshlt]
    cases f <;> simp [fbit]

/-- get_block_size recovers the tag length of an encoded tag. -/
theorem get_block_size_of_encoded (m : Mem) (a size : Nat) (f : Bool) (c fuel : Nat)
    (henc : EncodedAt m a size f c) (hfuel : c ≤ fuel) :
    get_block_size fuel m a = some c := by
  by_cases h1 : c = 1
  · subst h1
    rw [EncodedAt_one] at henc
    obtain ⟨hs, hb⟩ := henc
    unfold get_block_size
    have hand : m a &&& SIZE_BIT = 128 := by
      rw [hb]
      exact and_128_of_ge (by omega) (by have := fbit_lt f; omega)
    rw [hand, if_pos (by omega)]
  · rw [EncodedAt_ge2 _ _ _ _ _ h1] at henc
    obtain ⟨hc2, hfit, hfirst, hmid, hlast⟩ := henc
    have hshlt : size >>> (7 * (c - 1)) < 64 :=
      shiftRight_lt_of_lt size (7 * (c - 1)) 6 hfit
    unfold get_block_size
    have hand : m a &&& SIZE_BIT = 0 := by
      rw [hfirst]
      exact and_128_of_lt (by have := fbit_lt f; omega)
    rw [hand, if_neg (by omega)]
    have main : ∀ t fuel1 cur acc, t + 1 ≤ fuel1 →
        (∀ j, j < t → 128 ≤ m (cur + j) ∧ m (cur + j) < 256) →
        m (cur + t) < 128 →
        get_block_size_loop fuel1 m cur acc = some (acc + t) := by
      intro t
      induction t with
      | zero =>
        intro fuel1 cur acc hf hmidb hend
        obtain ⟨fuel1, rfl⟩ : ∃ g, fuel1 = g + 1 := ⟨fuel1 - 1, by omega⟩
        rw [get_block_size_loop_succ]
        have hand0 : m cur &&& SIZE_BIT = 0 := and_128_of_lt (by simpa using hend)
        rw [hand0, if_neg (by omega)]
        simp
      | succ t ih =>
        intro fuel1 cur acc hf hmidb hend
        obtain ⟨fuel1, rfl⟩ : ∃ g, fuel1 = g + 1 := ⟨fuel1 - 1, by omega⟩
        rw [get_block_size_loop_succ]
        have hcur := hmidb 0 (by omega)
        simp only [Nat.add_zero] at hcur
        have hand1 : m cur &&& SIZE_BIT = 128 := and_128_of_ge hcur.1 hcur.2
        rw [hand1, if_pos (by omega)]
        have := ih fuel1 (cur + 1) (acc + 1) (by omega)
          (fun j hj => by
            have := hmidb (j + 1) (by omega)
            rwa [show cur + (j + 1) = cur + 1 + j by ring] at this)
          (by rwa [show cur + 1 + t = cur + (t + 1) by ring])
        rw [this]
        congr 1
        omega
    have hres := main (c - 2) fuel (a + 1) 2 (by omega)
      (fun j hj => by
        have hb := hmid (j + 1) (by omega) (by omega)
        rw [show a + 1 + j = a + (j + 1) by ring, hb]
        constructor
        · omega
        · have : size >>> (7 * (c - 1 - (j + 1))) % 128 < 128 :=
            Nat.mod_lt _ (by norm_num)
          omega)
      (by
        rw [show a + 1 + (c - 2) = a + (c - 1) by omega, hlast]
        have : size % 128 < 128 := Nat.mod_lt _ (by norm_num)
        omega)
    rw [hres]
    congr 1
    omega

/-- Correctness of the right-to-left decode loop: starting at the last of the
n bytes carrying the value H (first byte plus n - 1 continuation bytes) with
the low part L already accumulated at shift position ms, it returns the full
value and the address of the first byte. -/
theorem read_right_loop_spec :
    ∀ n, 1 ≤ n → ∀ fuel, n ≤ fuel → ∀ (m : Mem) (b H L ms : Nat) (f : Bool),
    H < 2 ^ (6 + 7 * (n - 1)) → L < 2 ^ (7 * ms) →
    m b = H >>> (7 * (n - 1)) + fbit f →
    (∀ j, j < n → 1 ≤ j → m (b + j) = (H >>> (7 * (n - 1 - j))) % 128 + 128) →
    read_right_loop fuel m (b + (n - 1)) L ms = some (L + H * 2 ^ (7 * ms), b) := by
  intro n
  induction n with
  | zero => omega
  | succ n ih =>
    intro _ fuel hfuel m b H L ms f hH hL hfirst hmid
    obtain ⟨fuel, rfl⟩ : ∃ g, fuel = g + 1 := ⟨fuel - 1, by omega⟩
    rcases Nat.eq_zero_or_pos n with hn0 | hn1
    · subst hn0
      norm_num at hH hfirst
      rw [show b + (0 + 1 - 1) = b by omega, read_right_loop_succ]
      have hand : m b &&& SIZE_BIT = 0 := by
        rw [hfirst]
        exact and_128_of_lt (by have := fbit_lt f; omega)
      rw [hand, if_neg (by omega)]
      have hand63 : m b &&& 63 = H := by
        rw [hfirst, and_63_eq_mod]
        cases f <;> simp [fbit] <;> omega
      rw [hand63, Nat.shiftLeft_eq, lor_pow_add_left H L (7 * ms) hL]
      congr 2
      omega
    · have hcur : m (b + n) = H % 128 + 128 := by
        have := hmid n (by omega) (by omega)
        rwa [show n + 1 - 1 - n = 0 by omega, Nat.mul_zero, Nat.shiftRight_zero] at this
      have hidx : b + (n + 1 - 1) = b + n := by omega
      rw [hidx, read_right_loop_succ]
      have hand : m (b + n) &&& SIZE_BIT = 128 := by
        rw [hcur]
        have : H % 128 < 128 := Nat.mod_lt _ (by norm_num)
        exact and_128_of_ge (by omega) (by omega)
      rw [hand, if_pos (by omega)]
      have hand127 : m (b + n) &&& 127 = H % 128 := by
        rw [hcur, and_127_eq_mod]
        have : H % 128 < 128 := Nat.mod_lt _ (by norm_num)
        omega
      rw [hand127, Nat.shiftLeft_eq]
      have hlor : L ||| H % 128 * 2 ^ (7 * ms) = H % 128 * 2 ^ (7 * ms) + L :=
        lor_pow_add_left _ L (7 * ms) hL
      rw [hlor]
      have harg : b + n - 1 = b + (n - 1) := by omega
      rw [harg]
      have happ := ih hn1 fuel (by omega) m b (H >>> 7)
        (H % 128 * 2 ^ (7 * ms) + L) (ms + 1) f
        (by
          apply shiftRight_lt_of_lt H 7
          calc H < 2 ^ (6 + 7 * (n + 1 - 1)) := hH
          _ = 2 ^ (6 + 7 * (n - 1) + 7) := by congr 1; omega)
        (by
          have h1 : H % 128 ≤ 127 := by
            have := Nat.mod_lt H (show 0 < 128 by norm_num)
            omega
          have h2 : H % 128 * 2 ^ (7 * ms) + L < 128 * 2 ^ (7 * ms) := by
            have : H % 128 * 2 ^ (7 * ms) ≤ 127 * 2 ^ (7 * ms) :=
              Nat.mul_le_mul_right _ h1
            omega
          calc H % 128 * 2 ^ (7 * ms) + L < 128 * 2 ^ (7 * ms) := h2
          _ = 2 ^ (7 * (ms + 1)) := by
            rw [show (128 : Nat) = 2 ^ 7 by norm_num, ← pow_add]
            congr 1
            ring)
        (by
          rw [hfirst, ← Nat.shiftRight_add,
            show 7 + 7 * (n - 1) = 7 * (n + 1 - 1) by omega])
        (by
          intro j hj h1j
          have := hmid j (by omega) h1j
          rw [this, ← Nat.shiftRight_add,
            show 7 + 7 * (n - 1 - j) = 7 * (n + 1 - 1 - j) by omega])
      rw [happ]
      congr 2
      rw [Nat.shiftRight_eq_div_pow]
      have hA : (2 : Nat) ^ (7 * (ms + 1)) = 128 * 2 ^ (7 * ms) := by
        rw [show (128 : Nat) = 2 ^ 7 by norm_num, ← pow_add]
        congr 1
        ring
      rw [hA]
      have := Nat.div_add_mod H 128
      calc H % 128 * 2 ^ (7 * ms) + L + H / 128 * (128 * 2 ^ (7 * ms))
          = (128 * (H / 128) + H % 128) * 2 ^ (7 * ms) + L := by ring
      _ = H * 2 ^ (7 * ms) + L := by rw [this]
      _ = L + H * 2 ^ (7 * ms) := by ring

/-- read_from_right decodes the mirrored tag whose last byte sits at the
right end of the block, returning the payload size and the position of the
first byte of that right tag. -/
theorem read_from_right_of_encoded (m : Mem) (b size : Nat) (f : Bool) (c fuel : Nat)
    (henc : EncodedAt m b size f c) (hfuel : c ≤ fuel) :
    read_from_right fuel m (b + (c - 1)) = some (size, b) := by
  by_cases h1 : c = 1
  · subst h1
    rw [EncodedAt_one] at henc
    obtain ⟨hs, hb⟩ := henc
    unfold read_from_right
    rw [show b + (1 - 1) = b by omega]
    have hand : m b &&& SIZE_BIT = 128 := by
      rw [hb]
      exact and_128_of_ge (by omega) (by have := fbit_lt f; omega)
    rw [hand, if_pos (by omega), hb, and_63_eq_mod]
    congr 2
    cases f <;> simp [fbit] <;> omega
  · rw [EncodedAt_ge2 _ _ _ _ _ h1] at henc
    obtain ⟨hc2, hfit, hfirst, hmid, hlast⟩ := henc
    unfold read_from_right
    have hand : m (b + (c - 1)) &&& SIZE_BIT = 0 := by
      rw [hlast]
      exact and_128_of_lt (Nat.mod_lt _ (by norm_num))
    rw [hand, if_neg (by omega)]
    have hand127 : m (b + (c - 1)) &&& 127 = size % 128 := by
      rw [hlast, and_127_eq_mod]
      exact Nat.mod_mod_of_dvd _ dvd_rfl
    rw [hand127]
    have harg : b + (c - 1) - 1 = b + (c - 1 - 1) := by omega
    rw [harg]
    have happ := read_right_loop_spec (c - 1) (by omega) fuel (by omega) m b
      (size >>> 7) (size % 128) 1 f
      (by
        apply shiftRight_lt_of_lt size 7
        calc size < 2 ^ (6 + 7 * (c - 1)) := hfit
        _ = 2 ^ (6 + 7 * (c - 1 - 1) + 7) := by congr 1; omega)
      (by norm_num; exact Nat.mod_lt _ (by norm_num))
      (by
        rw [hfirst, ← Nat.shiftRight_add,
          show 7 + 7 * (c - 1 - 1) = 7 * (c - 1) by omega])
      (by
        intro j hj h1j
        have := hmid j (by omega) h1j
        rw [this, ← Nat.shiftRight_add,
          show 7 + 7 * (c - 1 - 1 - j) = 7 * (c - 1 - j) by omega])
    rw [happ]
    congr 2
    rw [Nat.shiftRight_eq_div_pow]
    have := Nat.div_add_mod size 128
    norm_num
    omega

/-! ## The needed-tag-size function -/

theorem needed_loop_le_iff : ∀ k t, needed_loop t ≤ k ↔ t < 2 ^ (7 * k) := by
  intro k
  induction k with
  | zero =>
    intro t
    rw [needed_loop]
    by_cases h : t = 0
    · subst h
      simp
    · rw [if_neg h]
      norm_num
      omega
  | succ k ih =>
    intro t
    rw [needed_loop]
    by_cases h : t = 0
    · subst h
      simp
    · rw [if_neg h]
      have h2 : 1 + needed_loop (t >>> 7) ≤ k + 1 ↔ needed_loop (t >>> 7) ≤ k := by omega
      rw [h2, ih (t >>> 7), Nat.shiftRight_eq_div_pow]
      rw [Nat.div_lt_iff_lt_mul (Nat.pos_pow_of_pos _ (by norm_num))]
      have he : 2 ^ (7 * k) * 2 ^ 7 = 2 ^ (7 * (k + 1)) := by
        ring
      rw [he]

theorem needed_pos (s : Nat) : 1 ≤ get_needed_code_block_size s := by
  unfold get_needed_code_block_size
  by_cases h : s < FREE_BIT
  · rw [if_pos h]
  · rw [if_neg h]
    omega

/-- Characterization of the needed tag size: it is at most c exactly when the
size fits into 6 + 7 (c - 1) bits. -/
theorem needed_le_iff (s c : Nat) (hc : 1 ≤ c) :
    get_needed_code_block_size s ≤ c ↔ s < 2 ^ (6 + 7 * (c - 1)) := by
  unfold get_needed_code_block_size
  by_cases h : s < FREE_BIT
  · simp only [h, if_pos]
    constructor
    · intro _
      calc s < 64 := by simpa [FREE_BIT] using h
      _ = 2 ^ 6 := by norm_num
      _ ≤ 2 ^ (6 + 7 * (c - 1)) := Nat.pow_le_pow_right (by norm_num) (by omega)
    · intro _
      exact hc
  · rw [if_neg h]
    have h2 : 1 + needed_loop (s >>> 6) ≤ c ↔ needed_loop (s >>> 6) ≤ c - 1 := by omega
    rw [h2, needed_loop_le_iff (c - 1) (s >>> 6), Nat.shiftRight_eq_div_pow]
    rw [Nat.div_lt_iff_lt_mul (Nat.pos_pow_of_pos _ (by norm_num))]
    have he : 2 ^ (7 * (c - 1)) * 2 ^ 6 = 2 ^ (6 + 7 * (c - 1)) := by
      rw [← pow_add]
      congr 1
      ring
    rw [he]

theorem needed_mono {s t : Nat} (h : s ≤ t) :
    get_needed_code_block_size s ≤ get_needed_code_block_size t := by
  have h1 := needed_pos t
  rw [needed_le_iff s _ h1]
  have h2 := (needed_le_iff t _ h1).mp le_rfl
  omega

theorem needed_loop_eq_payload_loop : ∀ t, 1 ≤ t →
    needed_loop t = 1 + payload_cbs_loop t := by
  intro t
  induction t using Nat.strong_induction_on with
  | _ t ih =>
    intro ht
    rw [needed_loop, payload_cbs_loop]
    by_cases h : 127 < t
    · have hpos : 1 ≤ t >>> 7 := by
        rw [Nat.shiftRight_eq_div_pow]
        have : 128 ≤ t := by omega
        omega
      have hlt : t >>> 7 < t := by
        rw [Nat.shiftRight_eq_div_pow]
        exact Nat.div_lt_self (by omega) (by norm_num)
      rw [if_neg (by omega), if_pos h, ih (t >>> 7) hlt hpos]
    · have hz : t >>> 7 = 0 := by
        rw [Nat.shiftRight_eq_div_pow]
        omega
      rw [if_neg (by omega), if_neg h, needed_loop, if_pos hz]

/-- For sizes of 64 and above, the tag size computed inline by
generate_code_block_for_payload_size equals get_needed_code_block_size. -/
theorem payload_cbs_eq_needed (s : Nat) (h : 64 ≤ s) :
    2 + payload_cbs_loop (s >>> 6) = get_needed_code_block_size s := by
  unfold get_needed_code_block_size
  rw [if_neg (by simp [FREE_BIT]; omega)]
  have hpos : 1 ≤ s >>> 6 := by
    rw [Nat.shiftRight_eq_div_pow]
    norm_num
    omega
  rw [needed_loop_eq_payload_loop _ hpos]
  omega

/-- generate_code_block_for_payload_size writes the encoding of (s, f) with
the minimal tag size and does not touch any byte outside the tag. -/
theorem gcb_payload_spec (m : Mem) (a s : Nat) (f : Bool) :
    (generate_code_block_for_payload_size m a s f).2 = get_needed_code_block_size s ∧
    EncodedAt (generate_code_block_for_payload_size m a s f).1 a s f
      (generate_code_block_for_payload_size m a s f).2 ∧
    (∀ x, x < a ∨ a + ((generate_code_block_for_payload_size m a s f).2 - 1) < x →
      (generate_code_block_for_payload_size m a s f).1 x = m x) := by
  by_cases h : s ≤ 63
  · have hneed : get_needed_code_block_size s = 1 := by
      unfold get_needed_code_block_size
      rw [if_pos (by simp [FREE_BIT]; omega)]
    have hgen : generate_code_block_for_payload_size m a s f
        = (set_free (m.write a (s ||| SIZE_BIT)) a f, 1) := by
      simp [generate_code_block_for_payload_size, h]
    rw [hgen, hneed]
    have := gcb2_encodes m a s f 1 le_rfl (by simp; omega)
    rw [gcb2_one] at this
    exact ⟨rfl, this.1, this.2⟩
  · have hneed : (2 + payload_cbs_loop (s >>> 6)) = get_needed_code_block_size s :=
      payload_cbs_eq_needed s (by omega)
    have hgen : generate_code_block_for_payload_size m a s f
        = (generate_code_block_for_payload_size2 m a s f (2 + payload_cbs_loop (s >>> 6)),
            2 + payload_cbs_loop (s >>> 6)) := by
      simp [generate_code_block_for_payload_size, h]
    rw [hgen]
    have hc1 : (2 : Nat) + payload_cbs_loop (s >>> 6) ≠ 1 := by omega
    have hfit : s < 2 ^ (6 + 7 * (2 + payload_cbs_loop (s >>> 6) - 1)) := by
      rw [hneed]
      exact (needed_le_iff s _ (needed_pos s)).mp le_rfl
    have := gcb2_encodes m a s f (2 + payload_cbs_loop (s >>> 6)) (by omega)
      (by rw [if_neg hc1]; exact hfit)
    exact ⟨hneed, this.1, this.2⟩

/-! ## The internal-size encoder -/

theorem internal_cbs_loop_succ (fuel total c : Nat) :
    internal_cbs_loop (fuel + 1) total c =
      match checkedSub total (2 * c) with
      | none => none
      | some rem =>
        if c < get_needed_code_block_size rem then
          internal_cbs_loop fuel total (c + 1)
        else some c := rfl

theorem two_add_two_mul_le_pow : ∀ L, 4 ≤ L → 2 + 2 * L ≤ 2 ^ L := by
  intro L
  induction L with
  | zero => omega
  | succ L ih =>
    intro h
    rcases Nat.lt_or_ge L 4 with h4 | h4
    · have hL : L = 3 := by omega
      subst hL
      norm_num
    · have h1 := ih h4
      have h2 : (2 : Nat) ≤ 2 ^ L :=
        calc (2 : Nat) = 2 ^ 1 := by norm_num
        _ ≤ 2 ^ L := Nat.pow_le_pow_right (by norm_num) (by omega)
      calc 2 + 2 * (L + 1) = (2 + 2 * L) + 2 := by ring
      _ ≤ 2 ^ L + 2 ^ L := by omega
      _ = 2 ^ (L + 1) := by ring

theorem needed_le_log (t : Nat) (_ht : 1 ≤ t) :
    get_needed_code_block_size t ≤ 1 + Nat.log2 t := by
  rw [needed_le_iff t _ (by omega)]
  calc t < 2 ^ (Nat.log2 t + 1) := Nat.lt_log2_self
  _ ≤ 2 ^ (6 + 7 * (1 + Nat.log2 t - 1)) := Nat.pow_le_pow_right (by norm_num) (by omega)

/-- The tag needed for a block never eats more than half of the block. -/
theorem needed_le_total_half (total : Nat) (h : 2 ≤ total) :
    2 * get_needed_code_block_size total ≤ total := by
  rcases Nat.lt_or_ge total 64 with h64 | h64
  · have : get_needed_code_block_size total = 1 := by
      unfold get_needed_code_block_size
      rw [if_pos (by simp [FREE_BIT]; omega)]
    omega
  · have hlog6 : 6 ≤ Nat.log2 total := by
      by_contra hlt
      have hx : Nat.log2 total < 6 := by omega
      have h3 := (Nat.log2_lt (show total ≠ 0 by omega)).mp hx
      norm_num at h3
      omega
    have h1 := needed_le_log total (by omega)
    have h2 := two_add_two_mul_le_pow (Nat.log2 total) (by omega)
    have h3 : 2 ^ Nat.log2 total ≤ total := Nat.log2_self_le (by omega)
    omega

/-- The search loop of generate_code_block_for_internal_size run from start
reaches the first index cstop at which the needed tag size fits. -/
theorem internal_cbs_loop_spec :
    ∀ fuel start cstop total, 1 ≤ start → start ≤ cstop → 2 * cstop ≤ total →
    (∀ i, start ≤ i → i < cstop → i < get_needed_code_block_size (total - 2 * i)) →
    get_needed_code_block_size (total - 2 * cstop) ≤ cstop →
    cstop + 1 - start ≤ fuel →
    internal_cbs_loop fuel total start = some cstop := by
  intro fuel
  induction fuel with
  | zero => omega
  | succ fuel ih =>
    intro start cstop total h1 h2 h3 hfail hstop hfuel
    rw [internal_cbs_loop_succ]
    have hsub : checkedSub total (2 * start) = some (total - 2 * start) := by
      unfold checkedSub
      rw [if_pos (by omega)]
    rw [hsub]
    rcases Nat.eq_or_lt_of_le h2 with heq | hlt
    · subst heq
      simp only [if_neg (by omega : ¬ start < get_needed_code_block_size (total - 2 * start))]
    · have hcond : start < get_needed_code_block_size (total - 2 * start) :=
        hfail start le_rfl hlt
      simp only [if_pos hcond]
      exact ih (start + 1) cstop total (by omega) (by omega) h3
        (fun i hi1 hi2 => hfail i (by omega) hi2) hstop (by omega)

/-- Existence and bounds for the least fitting tag size of the internal-size
encoder. -/
theorem internal_stop_exists (total : Nat) (h6 : 6 ≤ total) :
    ∃ c, 1 ≤ c ∧ c ≤ get_needed_code_block_size total ∧ 2 * c ≤ total ∧
      get_needed_code_block_size (total - 2 * c) ≤ c ∧
      (∀ i, 1 ≤ i → i < c → i < get_needed_code_block_size (total - 2 * i)) ∧
      4 ≤ total - 2 * c := by
  classical
  have hP : ∃ c, 1 ≤ c ∧ get_needed_code_block_size (total - 2 * c) ≤ c :=
    ⟨get_needed_code_block_size total, needed_pos total, needed_mono (Nat.sub_le _ _)⟩
  set c := Nat.find hP with hcdef
  obtain ⟨hc1, hcstop⟩ := Nat.find_spec hP
  have hmin : ∀ i, i < c →
      ¬(1 ≤ i ∧ get_needed_code_block_size (total - 2 * i) ≤ i) :=
    fun i hi => Nat.find_min hP hi
  have hcle : c ≤ get_needed_code_block_size total :=
    Nat.find_min' hP ⟨needed_pos total, needed_mono (Nat.sub_le _ _)⟩
  have h2c : 2 * c ≤ total := by
    have := needed_le_total_half total (by omega)
    omega
  refine ⟨c, hc1, hcle, h2c, hcstop, ?_, ?_⟩
  · intro i hi1 hi2
    have := hmin i hi2
    push_neg at this
    exact this hi1
  · rcases Nat.eq_or_lt_of_le hc1 with heq | hlt
    · omega
    · have hfail := hmin (c - 1) (by omega)
      push_neg at hfail
      have h2 := hfail (by omega)
      have h3 : 2 ≤ get_needed_code_block_size (total - 2 * (c - 1)) := by omega
      have h4 : 64 ≤ total - 2 * (c - 1) := by
        by_contra hb
        have : get_needed_code_block_size (total - 2 * (c - 1)) = 1 := by
          unfold get_needed_code_block_size
          rw [if_pos (by simp [FREE_BIT]; omega)]
        omega
      omega

/-! ## The tag copy -/

theorem cctte_loop_spec : ∀ rem (m : Mem) (ds de current i : Nat),
    current + rem = de + 1 →
    (∀ j, j < rem → ds + i + j < current) →
    (∀ j, j < rem → (cctte_loop rem m ds de current i) (current + j) = m (ds + i + j)) ∧
    (∀ x, x < current ∨ de < x → (cctte_loop rem m ds de current i) x = m x) := by
  intro rem
  induction rem with
  | zero =>
    intro m ds de current i hc hr
    exact ⟨fun j hj => by omega, fun x hx => rfl⟩
  | succ rem ih =>
    intro m ds de current i hc hr
    have hle : current ≤ de := by omega
    have hunfold : cctte_loop (rem + 1) m ds de current i =
        if current ≤ de then
          cctte_loop rem (m.write current (m (ds + i))) ds de (current + 1) (i + 1)
        else m := rfl
    rw [hunfold, if_pos hle]
    set m1 : Mem := m.write current (m (ds + i)) with hm1
    obtain ⟨hby, hfr⟩ := ih m1 ds de (current + 1) (i + 1) (by omega)
      (fun j hj => by have := hr (j + 1) (by omega); omega)
    constructor
    · intro j hj
      rcases Nat.eq_zero_or_pos j with hj0 | hjp
      · subst hj0
        have h2 : cctte_loop rem m1 ds de (current + 1) (i + 1) current = m (ds + i) := by
          rw [hfr current (by omega), hm1, Mem.write_same]
        exact h2
      · obtain ⟨j2, rfl⟩ : ∃ j2, j = j2 + 1 := ⟨j - 1, by omega⟩
        have h1 : current + (j2 + 1) = current + 1 + j2 := by ring
        rw [h1, hby j2 (by omega), hm1]
        rw [Mem.write_other _ _ _ _ (by have := hr (j2 + 1) (by omega); omega)]
        congr 1
        ring
    · intro x hx
      rw [hfr x (by omega), hm1, Mem.write_other _ _ _ _ (by omega)]

/-- copy_code_block_to_end copies the c bytes at data_start into the c bytes
ending at data_end, leaving everything else unchanged, provided the regions
are disjoint. -/
theorem copy_code_block_to_end_spec (m : Mem) (ds de c : Nat)
    (hdisj : ds + 2 * c ≤ de + 1) :
    (∀ j, j < c → (copy_code_block_to_end m ds de c) (de - c + 1 + j) = m (ds + j)) ∧
    (∀ x, x < de - c + 1 ∨ de < x → (copy_code_block_to_end m ds de c) x = m x) := by
  unfold copy_code_block_to_end
  have h := cctte_loop_spec c m ds de (de - c + 1) 0 (by omega)
    (fun j hj => by omega)
  exact ⟨fun j hj => by have := h.1 j hj; simpa using this,
    fun x hx => h.2 x hx⟩

/-- An encoded tag is a property of its c bytes only, so it transfers along
pointwise-equal byte ranges. -/
theorem EncodedAt_of_bytes (m m2 : Mem) (a b size : Nat) (f : Bool) (c : Nat)
    (henc : EncodedAt m a size f c) (hb : ∀ j, j < c → m2 (b + j) = m (a + j)) :
    EncodedAt m2 b size f c := by
  by_cases h1 : c = 1
  · subst h1
    rw [EncodedAt_one] at henc ⊢
    have h0 := hb 0 (by omega)
    simp only [Nat.add_zero] at h0
    exact ⟨henc.1, by rw [h0]; exact henc.2⟩
  · rw [EncodedAt_ge2 _ _ _ _ _ h1] at henc ⊢
    obtain ⟨hc2, hfit, hfirst, hmid, hlast⟩ := henc
    refine ⟨hc2, hfit, ?_, ?_, ?_⟩
    · have h0 := hb 0 (by omega)
      simp only [Nat.add_zero] at h0
      rw [h0, hfirst]
    · intro j hj h1j
      rw [hb j (by omega), hmid j hj h1j]
    · rw [hb (c - 1) (by omega), hlast]

/-- set_free only rewrites the flag bit of an encoded tag. -/
theorem set_free_encoded (m : Mem) (a size : Nat) (f b : Bool) (c : Nat)
    (henc : EncodedAt m a size f c) :
    EncodedAt (set_free m a b) a size b c ∧
    (∀ x, x ≠ a → (set_free m a b) x = m x) := by
  constructor
  · by_cases h1 : c = 1
    · subst h1
      rw [EncodedAt_one] at henc ⊢
      obtain ⟨hs, hbyte⟩ := henc
      refine ⟨hs, ?_⟩
      rw [set_free_byte m a _ hbyte (by have := fbit_lt f; omega) b]
      have h2 : (size + 128 + fbit f) % 64 = size := by
        cases f <;> simp [fbit] <;> omega
      have h3 : (size + 128 + fbit f) / 128 = 1 := by
        cases f <;> simp [fbit] <;> omega
      rw [h2, h3]
    · rw [EncodedAt_ge2 _ _ _ _ _ h1] at henc ⊢
      obtain ⟨hc2, hfit, hfirst, hmid, hlast⟩ := henc
      have hshlt : size >>> (7 * (c - 1)) < 64 :=
        shiftRight_lt_of_lt size (7 * (c - 1)) 6 hfit
      refine ⟨hc2, hfit, ?_, ?_, ?_⟩
      · rw [set_free_byte m a _ hfirst (by have := fbit_lt f; omega) b]
        have h2 : (size >>> (7 * (c - 1)) + fbit f) % 64 = size >>> (7 * (c - 1)) := by
          cases f <;> simp [fbit] <;> omega
        have h3 : (size >>> (7 * (c - 1)) + fbit f) / 128 = 0 := by
          cases f <;> simp [fbit] <;> omega
        rw [h2, h3]
        omega
      · intro j hj h1j
        rw [set_free_other _ _ _ _ (by omega), hmid j hj h1j]
      · rw [set_free_other _ _ _ _ (by omega), hlast]
  · intro x hx
    exact set_free_other _ _ _ _ hx

/-! ## The 4-byte next pointer -/

theorem store32_get (m : Mem) (a v : Nat) :
    (store32 m a v) a = v % 256 ∧
    (store32 m a v) (a + 1) = v / 256 % 256 ∧
    (store32 m a v) (a + 2) = v / 65536 % 256 ∧
    (store32 m a v) (a + 3) = v / 16777216 % 256 := by
  unfold store32
  refine ⟨?_, ?_, ?_, ?_⟩
  · rw [Mem.write_other _ _ _ _ (by omega), Mem.write_other _ _ _ _ (by omega),
      Mem.write_other _ _ _ _ (by omega), Mem.write_same]
  · rw [Mem.write_other _ _ _ _ (by omega), Mem.write_other _ _ _ _ (by omega),
      Mem.write_same]
  · rw [Mem.write_other _ _ _ _ (by omega), Mem.write_same]
  · rw [Mem.write_same]

theorem store32_other (m : Mem) (a v x : Nat) (h : x < a ∨ a + 3 < x) :
    (store32 m a v) x = m x := by
  unfold store32
  rw [Mem.write_other _ _ _ _ (by omega), Mem.write_other _ _ _ _ (by omega),
    Mem.write_other _ _ _ _ (by omega), Mem.write_other _ _ _ _ (by omega)]

theorem read32_store32 (m : Mem) (a v : Nat) :
    read32 (store32 m a v) a = v % 2 ^ 32 := by
  obtain ⟨h0, h1, h2, h3⟩ := store32_get m a v
  unfold read32
  rw [h0, h1, h2, h3]
  omega

theorem sentinel_bytes : ERROR_NEXT_POINTER % 256 = 255 ∧
    ERROR_NEXT_POINTER / 256 % 256 = 255 ∧
    ERROR_NEXT_POINTER / 65536 % 256 = 255 ∧
    ERROR_NEXT_POINTER / 16777216 % 256 = 255 := by decide

theorem store32_sentinel_byte (m : Mem) (a j : Nat) (hj : j < 4) :
    (store32 m a ERROR_NEXT_POINTER) (a + j) = 255 := by
  obtain ⟨h0, h1, h2, h3⟩ := store32_get m a ERROR_NEXT_POINTER
  interval_cases j
  · exact h0.trans sentinel_bytes.1
  · exact h1.trans sentinel_bytes.2.1
  · exact h2.trans sentinel_bytes.2.2.1
  · exact h3.trans sentinel_bytes.2.2.2

theorem read32_all255 (m : Mem) (a : Nat) (h : ∀ j, j < 4 → m (a + j) = 255) :
    read32 m a = ERROR_NEXT_POINTER := by
  have h0 : m a = 255 := h 0 (by omega)
  have h1 := h 1 (by omega)
  have h2 := h 2 (by omega)
  have h3 := h 3 (by omega)
  unfold read32
  rw [h0, h1, h2, h3]
  decide

/-! ## Closed form of the needed tag size -/

/-- For sizes of at least 64, the needed tag size is one leading byte plus
one byte per seven bits. -/
theorem needed_eq_log (s : Nat) (h : 64 ≤ s) :
    get_needed_code_block_size s = 1 + (Nat.log2 s + 1) / 7 := by
  have hL : 6 ≤ Nat.log2 s := by
    by_contra hlt
    have hx : Nat.log2 s < 6 := by omega
    have h3 := (Nat.log2_lt (show s ≠ 0 by omega)).mp hx
    norm_num at h3
    omega
  have hself : 2 ^ Nat.log2 s ≤ s := Nat.log2_self_le (by omega)
  have hlt : s < 2 ^ (Nat.log2 s + 1) := Nat.lt_log2_self
  apply Nat.le_antisymm
  · rw [needed_le_iff s _ (by omega)]
    calc s < 2 ^ (Nat.log2 s + 1) := hlt
    _ ≤ 2 ^ (6 + 7 * (1 + (Nat.log2 s + 1) / 7 - 1)) :=
      Nat.pow_le_pow_right (by norm_num) (by omega)
  · by_contra hcon
    push_neg at hcon
    have hq1 : 1 ≤ (Nat.log2 s + 1) / 7 := by omega
    have h2 : get_needed_code_block_size s ≤ (Nat.log2 s + 1) / 7 := by omega
    rw [needed_le_iff s _ hq1] at h2
    have h3 : 2 ^ Nat.log2 s < 2 ^ (6 + 7 * ((Nat.log2 s + 1) / 7 - 1)) :=
      lt_of_le_of_lt hself h2
    have h4 : Nat.log2 s < 6 + 7 * ((Nat.log2 s + 1) / 7 - 1) :=
      (Nat.pow_lt_pow_iff_right (by norm_num)).mp h3
    omega

theorem read32_congr (m m2 : Mem) (a : Nat) (h : ∀ j, j < 4 → m2 (a + j) = m (a + j)) :
    read32 m2 a = read32 m a := by
  have h0 : m2 a = m a := h 0 (by omega)
  have h1 := h 1 (by omega)
  have h2 := h 2 (by omega)
  have h3 := h 3 (by omega)
  unfold read32
  rw [h0, h1, h2, h3]

theorem EncodedAt_pos (m : Mem) (a size : Nat) (f : Bool) (c : Nat)
    (h : EncodedAt m a size f c) : 1 ≤ c := by
  by_cases h1 : c = 1
  · omega
  · rw [EncodedAt_ge2 _ _ _ _ _ h1] at h
    omega

/-- set_next on a free block: full specification, with preservation of the
tag and a frame outside the payload. -/
theorem set_next_spec (m : Mem) (lme size c sp n : Nat)
    (henc : EncodedAt m lme size true c) (hc : c ≤ 16) (hsize : 4 ≤ size)
    (hn : n = 0 ∨ (n ≠ 0 ∧ sp ≤ n ∧ n - sp < 2 ^ 32 - 1)) :
    ∃ m2, set_next TAG_FUEL m lme n sp = some m2 ∧
      read32 m2 (lme + c) = (if n = 0 then ERROR_NEXT_POINTER else n - sp) ∧
      get_next TAG_FUEL m2 lme sp = some n ∧
      EncodedAt m2 lme size true c ∧
      (∀ x, x < lme + c ∨ lme + c + size - 1 < x → m2 x = m x) := by
  have hcle : c ≤ TAG_FUEL := by simpa [TAG_FUEL] using hc
  have hc1 : 1 ≤ c := EncodedAt_pos m lme size true c henc
  have hgbs : get_block_size TAG_FUEL m lme = some c :=
    get_block_size_of_encoded m lme size true c TAG_FUEL henc hcle
  have hrfl : read_from_left TAG_FUEL m lme = some size :=
    read_from_left_of_encoded m lme size true c TAG_FUEL henc hcle
  have hrme : get_right_most_end TAG_FUEL m lme = some (lme + 2 * c + size - 1) := by
    simp [get_right_most_end, hrfl, hgbs]
  have hrn : get_right_next TAG_FUEL m lme c = some (lme + c + size - 4) := by
    unfold get_right_next
    rw [hrme]
    have h2 : (some (lme + 2 * c + size - 1)).map (fun r => r - c - 4 + 1) =
        some (lme + 2 * c + size - 1 - c - 4 + 1) := rfl
    rw [h2]
    congr 1
    omega
  rcases hn with hn0 | ⟨hne, hsp, hlt⟩
  · subst hn0
    have hall : ∀ j, j < 4 →
        (store32 (store32 m (lme + c) ERROR_NEXT_POINTER) (lme + c + size - 4)
          ERROR_NEXT_POINTER) (lme + c + j) = 255 := by
      intro j hj
      by_cases hcover : lme + c + size - 4 ≤ lme + c + j ∧
          lme + c + j ≤ lme + c + size - 4 + 3
      · have hrw : lme + c + j =
            (lme + c + size - 4) + (lme + c + j - (lme + c + size - 4)) := by omega
        rw [hrw]
        exact store32_sentinel_byte _ _ _ (by omega)
      · rw [store32_other _ _ _ _ (by omega)]
        exact store32_sentinel_byte m (lme + c) j hj
    have hread : read32 (store32 (store32 m (lme + c) ERROR_NEXT_POINTER)
        (lme + c + size - 4) ERROR_NEXT_POINTER) (lme + c) = ERROR_NEXT_POINTER :=
      read32_all255 _ _ hall
    have henc2 : EncodedAt (store32 (store32 m (lme + c) ERROR_NEXT_POINTER)
        (lme + c + size - 4) ERROR_NEXT_POINTER) lme size true c := by
      apply EncodedAt_of_bytes m _ lme lme size true c henc
      intro j hj
      rw [store32_other _ _ _ _ (by omega), store32_other _ _ _ _ (by omega)]
    have hgbs2 : get_block_size TAG_FUEL (store32 (store32 m (lme + c)
        ERROR_NEXT_POINTER) (lme + c + size - 4) ERROR_NEXT_POINTER) lme = some c :=
      get_block_size_of_encoded _ lme size true c TAG_FUEL henc2 hcle
    refine ⟨store32 (store32 m (lme + c) ERROR_NEXT_POINTER) (lme + c + size - 4)
      ERROR_NEXT_POINTER, ?_, ?_, ?_, henc2, ?_⟩
    · simp [set_next, get_left_next, hgbs, hrn]
    · rw [if_pos rfl]
      exact hread
    · simp [get_next, get_left_next, hgbs2, hread]
    · intro x hx
      rw [store32_other _ _ _ _ (by omega), store32_other _ _ _ _ (by omega)]
  · have hoff : (n - sp) % 2 ^ 32 = n - sp := Nat.mod_eq_of_lt (by omega)
    have hoff2 : (n - sp) % 4294967296 = n - sp := by omega
    have hneE : ¬ (n - sp = ERROR_NEXT_POINTER) := by
      unfold ERROR_NEXT_POINTER
      omega
    have henc1 : EncodedAt (store32 m (lme + c) (n - sp)) lme size true c := by
      apply EncodedAt_of_bytes m _ lme lme size true c henc
      intro j hj
      rw [store32_other _ _ _ _ (by omega)]
    have hrfl1 : read_from_left TAG_FUEL (store32 m (lme + c) (n - sp)) lme =
        some size := read_from_left_of_encoded _ lme size true c TAG_FUEL henc1 hcle
    by_cases h8 : 8 ≤ size
    · have hframe : ∀ j, j < 4 →
          (store32 (store32 m (lme + c) (n - sp)) (lme + c + size - 4) (n - sp))
            (lme + c + j) = (store32 m (lme + c) (n - sp)) (lme + c + j) := by
        intro j hj
        exact store32_other _ _ _ _ (by omega)
      have hread : read32 (store32 (store32 m (lme + c) (n - sp))
          (lme + c + size - 4) (n - sp)) (lme + c) = n - sp := by
        rw [read32_congr _ _ _ hframe, read32_store32, hoff]
      have henc2 : EncodedAt (store32 (store32 m (lme + c) (n - sp))
          (lme + c + size - 4) (n - sp)) lme size true c := by
        apply EncodedAt_of_bytes (store32 m (lme + c) (n - sp)) _ lme lme size true c
          henc1
        intro j hj
        exact store32_other _ _ _ _ (by omega)
      have hgbs2 : get_block_size TAG_FUEL (store32 (store32 m (lme + c) (n - sp))
          (lme + c + size - 4) (n - sp)) lme = some c :=
        get_block_size_of_encoded _ lme size true c TAG_FUEL henc2 hcle
      refine ⟨store32 (store32 m (lme + c) (n - sp)) (lme + c + size - 4) (n - sp),
        ?_, ?_, ?_, henc2, ?_⟩
      · simp [set_next, get_left_next, checkedSub, hgbs, hrn, hsp, hne, hoff,
          hoff2, hrfl1, h8]
      · rw [if_neg hne]
        exact hread
      · simp [get_next, get_left_next, hgbs2, hread, hneE]
        omega
      · intro x hx
        rw [store32_other _ _ _ _ (by omega), store32_other _ _ _ _ (by omega)]
    · have hread : read32 (store32 m (lme + c) (n - sp)) (lme + c) = n - sp := by
        rw [read32_store32, hoff]
      have hgbs2 : get_block_size TAG_FUEL (store32 m (lme + c) (n - sp)) lme =
          some c := get_block_size_of_encoded _ lme size true c TAG_FUEL henc1 hcle
      refine ⟨store32 m (lme + c) (n - sp), ?_, ?_, ?_, henc1, ?_⟩
      · simp [set_next, get_left_next, checkedSub, hgbs, hrn, hsp, hne, hoff,
          hoff2, hrfl1, h8]
      · rw [if_neg hne]
        exact hread
      · simp [get_next, get_left_next, hgbs2, hread, hneE]
        omega
      · intro x hx
        rw [store32_other _ _ _ _ (by omega)]

/-- C7: next-pointer round trip on a free block.  set_next followed by
get_next is the identity: a null successor stores the all-ones sentinel into
the pointer slot after the left tag and get_next then returns null, while a
non-null successor at byte offset below 2^32 - 1 from the page start stores
that offset and get_next returns exactly the stored pointer. -/
theorem c7_next_pointer_roundtrip (m : Mem) (lme size c sp n : Nat)
    (henc : EncodedAt m lme size true c) (hc : c ≤ 16) (hsize : 4 ≤ size)
    (hn : n = 0 ∨ (n ≠ 0 ∧ sp ≤ n ∧ n - sp < 2 ^ 32 - 1)) :
    ∃ m2, set_next TAG_FUEL m lme n sp = some m2 ∧
      read32 m2 (lme + c) = (if n = 0 then ERROR_NEXT_POINTER else n - sp) ∧
      get_next TAG_FUEL m2 lme sp = some n := by
  obtain ⟨m2, h1, h2, h3, _, _⟩ := set_next_spec m lme size c sp n henc hc hsize hn
  exact ⟨m2, h1, h2, h3⟩

theorem c7_next_pointer_roundtrip_witness :
    EncodedAt mem_c7 0 8 true 1 ∧
    ∃ m2, set_next TAG_FUEL mem_c7 0 0 0 = some m2 ∧
      read32 m2 (0 + 1) = (if (0 : Nat) = 0 then ERROR_NEXT_POINTER else 0 - 0) ∧
      get_next TAG_FUEL m2 0 0 = some 0 :=
  ⟨by decide, c7_next_pointer_roundtrip mem_c7 0 8 1 0 0 (by decide) (by decide)
    (by decide) (Or.inl rfl)⟩

/-- C5: encode/decode round trip.  Writing a left tag for a payload size of
at least the pointer width with generate_code_block_for_payload_size and
decoding gives back exactly the written pair (read_from_left the size,
is_free the flag), and after the tag has been mirrored to the right end of
the block with copy_code_block_to_end, read_from_right at the rightmost byte
returns the same size together with the address of the right tag's first
byte. -/
theorem c5_codec_roundtrip (m m1 m2 : Mem) (ds s c de : Nat) (f : Bool)
    (h4 : 4 ≤ s) (hrange : s < 2 ^ 111)
    (hgen : generate_code_block_for_payload_size m ds s f = (m1, c))
    (hde : de = ds + 2 * c + s - 1)
    (hm2 : m2 = copy_code_block_to_end m1 ds de c) :
    c = get_needed_code_block_size s ∧
    read_from_left TAG_FUEL m2 ds = some s ∧
    is_free m2 ds = f ∧
    read_from_right TAG_FUEL m2 de = some (s, ds + c + s) := by
  have h1 : (generate_code_block_for_payload_size m ds s f).1 = m1 := by rw [hgen]
  have h2 : (generate_code_block_for_payload_size m ds s f).2 = c := by rw [hgen]
  obtain ⟨hcn, hencL, hfr⟩ := gcb_payload_spec m ds s f
  rw [h2] at hcn
  rw [h1, h2] at hencL
  have hc1 : 1 ≤ c := EncodedAt_pos m1 ds s f c hencL
  have hc16 : c ≤ 16 := by
    rw [hcn]
    rw [needed_le_iff s 16 (by omega)]
    calc s < 2 ^ 111 := hrange
    _ ≤ 2 ^ (6 + 7 * (16 - 1)) := by norm_num
  have hcfuel : c ≤ TAG_FUEL := by simpa [TAG_FUEL] using hc16
  obtain ⟨hcopy, hcframe⟩ := copy_code_block_to_end_spec m1 ds de c (by omega)
  have hX : de - c + 1 = ds + c + s := by omega
  have hencL2 : EncodedAt m2 ds s f c := by
    apply EncodedAt_of_bytes m1 m2 ds ds s f c hencL
    intro j hj
    rw [hm2]
    exact hcframe (ds + j) (by omega)
  have hencR : EncodedAt m2 (de - c + 1) s f c := by
    apply EncodedAt_of_bytes m1 m2 ds (de - c + 1) s f c hencL
    intro j hj
    rw [hm2]
    exact hcopy j hj
  refine ⟨hcn, read_from_left_of_encoded m2 ds s f c TAG_FUEL hencL2 hcfuel,
    is_free_of_encoded m2 ds s f c hencL2, ?_⟩
  have hr := read_from_right_of_encoded m2 (de - c + 1) s f c TAG_FUEL hencR hcfuel
  rw [show de - c + 1 + (c - 1) = de by omega] at hr
  rw [hX] at hr
  exact hr

theorem c5_codec_roundtrip_witness :
    (4 : Nat) ≤ 4 ∧
    (c5_pair.2 = get_needed_code_block_size 4 ∧
     read_from_left TAG_FUEL c5_m2 0 = some 4 ∧
     is_free c5_m2 0 = true ∧
     read_from_right TAG_FUEL c5_m2 (0 + 2 * c5_pair.2 + 4 - 1) =
       some (4, 0 + c5_pair.2 + 4)) :=
  ⟨by decide,
    c5_codec_roundtrip mem_zero c5_pair.1 c5_m2 0 4 c5_pair.2
      (0 + 2 * c5_pair.2 + 4 - 1) true (by decide) (by norm_num) rfl rfl rfl⟩

/-- generate_code_block_for_internal_size: existence, minimality of the tag
size, the written tag, and a frame outside the tag bytes. -/
theorem gcb_internal_spec (fuel : Nat) (m : Mem) (a total : Nat) (f : Bool)
    (h6 : 6 ≤ total) (hrange : total < 2 ^ 111)
    (hfuel : get_needed_code_block_size total + 1 ≤ fuel) :
    ∃ m2 c, generate_code_block_for_internal_size fuel m a total f = some (m2, c) ∧
      1 ≤ c ∧ c ≤ 16 ∧
      get_needed_code_block_size (total - 2 * c) ≤ c ∧
      (∀ i, 1 ≤ i → i < c → i < get_needed_code_block_size (total - 2 * i)) ∧
      2 * c ≤ total ∧ 4 ≤ total - 2 * c ∧
      EncodedAt m2 a (total - 2 * c) f c ∧
      (∀ x, x < a ∨ a + (c - 1) < x → m2 x = m x) := by
  obtain ⟨c, hc1, hcle, h2c, hstop, hmin, h4⟩ := internal_stop_exists total h6
  have hloop : internal_cbs_loop fuel total 1 = some c :=
    internal_cbs_loop_spec fuel 1 c total (by omega) hc1 h2c
      (fun i h1i hic => hmin i h1i hic) hstop (by omega)
  have hsub : checkedSub total (2 * c) = some (total - 2 * c) := by
    simp [checkedSub, h2c]
  have hstop2 := hstop
  rw [needed_le_iff _ c hc1] at hstop2
  have hfit : if c = 1 then total - 2 * c < 64
      else total - 2 * c < 2 ^ (6 + 7 * (c - 1)) := by
    by_cases hc1' : c = 1
    · rw [if_pos hc1']
      subst hc1'
      simpa using hstop2
    · rw [if_neg hc1']
      exact hstop2
  obtain ⟨hencw, hframew⟩ := gcb2_encodes m a (total - 2 * c) f c hc1 hfit
  have hc16 : c ≤ 16 := by
    have h16 : get_needed_code_block_size total ≤ 16 := by
      rw [needed_le_iff total 16 (by omega)]
      calc total < 2 ^ 111 := hrange
      _ ≤ 2 ^ (6 + 7 * (16 - 1)) := by norm_num
    omega
  refine ⟨generate_code_block_for_payload_size2 m a (total - 2 * c) f c, c, ?_,
    hc1, hc16, hstop, hmin, h2c, h4, hencw, hframew⟩
  simp only [generate_code_block_for_internal_size, hloop, hsub]

/-- C6: for every total block size with room for two tags and a minimal
payload, generate_code_block_for_internal_size returns the least tag size c
at least 1 with get_needed_code_block_size (total - 2c) at most c, writes a
c-byte tag decoding to the payload total - 2c (so payload plus two tags is
exactly the total), and get_needed_code_block_size is 1 below 64 and
otherwise one leading byte plus one byte per further seven bits. -/
theorem c6_internal_encoding (fuel : Nat) (m : Mem) (a total : Nat) (f : Bool)
    (h6 : 6 ≤ total) (hrange : total < 2 ^ 111)
    (hfuel : get_needed_code_block_size total + 1 ≤ fuel) :
    ∃ m2 c, generate_code_block_for_internal_size fuel m a total f = some (m2, c) ∧
      1 ≤ c ∧
      get_needed_code_block_size (total - 2 * c) ≤ c ∧
      (∀ i, 1 ≤ i → i < c → i < get_needed_code_block_size (total - 2 * i)) ∧
      2 * c ≤ total ∧
      EncodedAt m2 a (total - 2 * c) f c ∧
      read_from_left TAG_FUEL m2 a = some (total - 2 * c) ∧
      is_free m2 a = f ∧
      (∀ s, s < 64 → get_needed_code_block_size s = 1) ∧
      (∀ s, 64 ≤ s → get_needed_code_block_size s = 1 + (Nat.log2 s + 1) / 7) := by
  obtain ⟨m2, c, hgen, hc1, hc16, hstop, hmin, h2c, h4, hencw, hframew⟩ :=
    gcb_internal_spec fuel m a total f h6 hrange hfuel
  refine ⟨m2, c, hgen, hc1, hstop, hmin, h2c, hencw, ?_, ?_, ?_, ?_⟩
  · exact read_from_left_of_encoded _ a _ f c TAG_FUEL hencw
      (by simpa [TAG_FUEL] using hc16)
  · exact is_free_of_encoded _ a _ f c hencw
  · intro s hs
    unfold get_needed_code_block_size
    rw [if_pos (by simpa [FREE_BIT] using hs)]
  · intro s hs
    exact needed_eq_log s hs

theorem c6_internal_encoding_witness :
    6 ≤ 8 ∧
    ∃ m2 c, generate_code_block_for_internal_size 2 mem_zero 0 8 true =
        some (m2, c) ∧
      1 ≤ c ∧
      get_needed_code_block_size (8 - 2 * c) ≤ c ∧
      (∀ i, 1 ≤ i → i < c → i < get_needed_code_block_size (8 - 2 * i)) ∧
      2 * c ≤ 8 ∧
      EncodedAt m2 0 (8 - 2 * c) true c ∧
      read_from_left TAG_FUEL m2 0 = some (8 - 2 * c) ∧
      is_free m2 0 = true ∧
      (∀ s, s < 64 → get_needed_code_block_size s = 1) ∧
      (∀ s, 64 ≤ s → get_needed_code_block_size s = 1 + (Nat.log2 s + 1) / 7) :=
  ⟨by decide, c6_internal_encoding 2 mem_zero 0 8 true (by decide) (by norm_num)
    (by decide)⟩

/-! ## The bucket table -/

set_option maxRecDepth 10000 in
theorem log2_64_range : ∀ v, v < 1024 → 128 ≤ v →
    log2_64 v = (if v < 256 then 7 else if v < 512 then 8 else 9) := by
  decide

theorem log2_64_128 : log2_64 128 = 7 := by decide

theorem lookup_bucket_32 : lookup_bucket 32 = 7 := by
  rw [lookup_bucket]
  norm_num [LAST_LINEAR_4_SCALING]

theorem lookup_bucket_128 : lookup_bucket 128 = 13 := by
  rw [lookup_bucket]
  norm_num [LAST_LINEAR_4_SCALING, LAST_LINEAR_16_SCALING, lookup_bucket_32]

theorem lookup_bucket_le_32 (s : Nat) (_h1 : 1 ≤ s) (h2 : s ≤ 32) :
    lookup_bucket s = (s - 1) / 4 := by
  rw [lookup_bucket]
  rw [if_pos (by simpa [LAST_LINEAR_4_SCALING] using h2)]

theorem lookup_bucket_le_128 (s : Nat) (h1 : 33 ≤ s) (h2 : s ≤ 128) :
    lookup_bucket s = 8 + (s - 33) / 16 := by
  rw [lookup_bucket]
  rw [if_neg (by simp only [LAST_LINEAR_4_SCALING]; omega),
    if_pos (by simpa [LAST_LINEAR_16_SCALING] using h2)]
  simp only [LAST_LINEAR_4_SCALING, lookup_bucket_32]
  omega

theorem lookup_bucket_le_1024 (s : Nat) (h1 : 129 ≤ s) (h2 : s ≤ 1024) :
    lookup_bucket s = 7 + log2_64 (s - 1) := by
  rw [lookup_bucket]
  rw [if_neg (by simp only [LAST_LINEAR_4_SCALING]; omega),
    if_neg (by simp only [LAST_LINEAR_16_SCALING]; omega),
    if_pos (by simpa [LARGEST_BUCKET_SIZE] using h2)]
  simp only [LAST_LINEAR_16_SCALING, lookup_bucket_128, log2]
  rw [log2_64_128]
  omega

theorem lookup_bucket_gt_1024 (s : Nat) (h : 1024 < s) :
    lookup_bucket s = BUCKET_LIST_SIZE - 1 := by
  rw [lookup_bucket]
  rw [if_neg (by simp only [LAST_LINEAR_4_SCALING]; omega),
    if_neg (by simp only [LAST_LINEAR_16_SCALING]; omega),
    if_neg (by simp only [LARGEST_BUCKET_SIZE]; omega)]

theorem lookup_bucket_le_17 (s : Nat) (h : 1 ≤ s) : lookup_bucket s ≤ 17 := by
  rcases Nat.lt_or_ge s 33 with h1 | h1
  · rw [lookup_bucket_le_32 s h (by omega)]
    omega
  · rcases Nat.lt_or_ge s 129 with h2 | h2
    · rw [lookup_bucket_le_128 s (by omega) (by omega)]
      omega
    · rcases Nat.lt_or_ge s 1025 with h3 | h3
      · rw [lookup_bucket_le_1024 s (by omega) (by omega),
          log2_64_range (s - 1) (by omega) (by omega)]
        split_ifs <;> omega
      · rw [lookup_bucket_gt_1024 s (by omega)]
        decide

/-- C4 (counterexample): the bucket table has 18 entries, not the 19 the
claim states; the stride-16 segment contributes 6 buckets, not 7. -/
theorem c4_bucket_count_counterexample :
    BUCKET_LIST_SIZE = 18 ∧ BUCKET_LIST_SIZE ≠ 19 := by decide

/-- C4 (amended): the per-page bucket table has exactly 18 buckets: 8 linear
stride-4 buckets for sizes 1..32, 6 linear stride-16 buckets for sizes
33..128, 3 power-of-two buckets for sizes 129..1024 and one final unbounded
bucket; lookup_bucket maps every positive size to the index of its size
class and saturates at index 17 above 1024. -/
theorem c4_bucket_layout :
    BUCKET_LIST_SIZE = 18 ∧
    (∀ s, 1 ≤ s → s ≤ 32 → lookup_bucket s = (s - 1) / 4) ∧
    (∀ s, 33 ≤ s → s ≤ 128 → lookup_bucket s = 8 + (s - 33) / 16) ∧
    (∀ s, 129 ≤ s → s ≤ 256 → lookup_bucket s = 14) ∧
    (∀ s, 257 ≤ s → s ≤ 512 → lookup_bucket s = 15) ∧
    (∀ s, 513 ≤ s → s ≤ 1024 → lookup_bucket s = 16) ∧
    (∀ s, 1024 < s → lookup_bucket s = BUCKET_LIST_SIZE - 1) ∧
    (∀ s, 1 ≤ s → lookup_bucket s ≤ BUCKET_LIST_SIZE - 1) := by
  refine ⟨by decide, fun s h1 h2 => lookup_bucket_le_32 s h1 h2,
    fun s h1 h2 => lookup_bucket_le_128 s h1 h2, ?_, ?_, ?_,
    fun s h => lookup_bucket_gt_1024 s h, ?_⟩
  · intro s h1 h2
    rw [lookup_bucket_le_1024 s (by omega) (by omega),
      log2_64_range (s - 1) (by omega) (by omega), if_pos (by omega)]
  · intro s h1 h2
    rw [lookup_bucket_le_1024 s (by omega) (by omega),
      log2_64_range (s - 1) (by omega) (by omega), if_neg (by omega),
      if_pos (by omega)]
  · intro s h1 h2
    rw [lookup_bucket_le_1024 s (by omega) (by omega),
      log2_64_range (s - 1) (by omega) (by omega), if_neg (by omega),
      if_neg (by omega)]
  · intro s h
    have h17 := lookup_bucket_le_17 s h
    have hb : BUCKET_LIST_SIZE = 18 := by decide
    omega

/-- C9: for every positive size, lookup_bucket stays strictly below
BUCKET_LIST_SIZE, so every bucket-array access indexed by a lookup_bucket
result is in bounds. -/
theorem c9_lookup_bucket_in_bounds (s : Nat) (h : 1 ≤ s) :
    lookup_bucket s < BUCKET_LIST_SIZE := by
  have h17 := lookup_bucket_le_17 s h
  have hb : BUCKET_LIST_SIZE = 18 := by decide
  omega

theorem c9_lookup_bucket_in_bounds_witness :
    1 ≤ 2000 ∧ lookup_bucket 2000 < BUCKET_LIST_SIZE :=
  ⟨by decide, c9_lookup_bucket_in_bounds 2000 (by decide)⟩

/-- write_space_size_code_blocks on a record with data_start and the payload
size cached: writes the payload tag, mirrors it, caches the tag size, the
payload pointer and the data end, and changes nothing outside the block. -/
theorem wssc_spec (m : Mem) (ds r : Nat) (pr : PageRec)
    (h4 : 4 ≤ r) (hr : r < 2 ^ 111) :
    ∃ m1 c1, AllocationData.write_space_size_code_blocks m
        { data_start := some ds, data_end := none, code_block_size := none,
          space := { ptr := none, size := some r, next := none },
          page := some pr } false =
      some (m1,
        { data_start := some ds, data_end := some (ds + c1 + r + c1 - 1),
          code_block_size := some c1,
          space := { ptr := some (ds + c1), size := some r, next := none },
          page := some pr }) ∧
      c1 = get_needed_code_block_size r ∧ 1 ≤ c1 ∧ c1 ≤ 16 ∧
      EncodedAt m1 ds r false c1 ∧
      EncodedAt m1 (ds + c1 + r) r false c1 ∧
      is_free m1 ds = false ∧
      read_from_left TAG_FUEL m1 ds = some r ∧
      read_from_right TAG_FUEL m1 (ds + 2 * c1 + r - 1) = some (r, ds + c1 + r) ∧
      (∀ x, x < ds ∨ ds + 2 * c1 + r - 1 < x → m1 x = m x) := by
  obtain ⟨hcn, hencg, hfrg⟩ := gcb_payload_spec m ds r false
  have hc1 : 1 ≤ (generate_code_block_for_payload_size m ds r false).2 :=
    EncodedAt_pos _ ds r false _ hencg
  have hc16 : (generate_code_block_for_payload_size m ds r false).2 ≤ 16 := by
    rw [hcn]
    rw [needed_le_iff r 16 (by omega)]
    calc r < 2 ^ 111 := hr
    _ ≤ 2 ^ (6 + 7 * (16 - 1)) := by norm_num
  obtain ⟨hcopy, hcframe⟩ := copy_code_block_to_end_spec
    (generate_code_block_for_payload_size m ds r false).1 ds
    (ds + (generate_code_block_for_payload_size m ds r false).2 + r +
      (generate_code_block_for_payload_size m ds r false).2 - 1)
    (generate_code_block_for_payload_size m ds r false).2 (by omega)
  have hX : ds + (generate_code_block_for_payload_size m ds r false).2 + r +
      (generate_code_block_for_payload_size m ds r false).2 - 1 -
      (generate_code_block_for_payload_size m ds r false).2 + 1 =
      ds + (generate_code_block_for_payload_size m ds r false).2 + r := by
    omega
  have hencL : EncodedAt (copy_code_block_to_end
      (generate_code_block_for_payload_size m ds r false).1 ds
      (ds + (generate_code_block_for_payload_size m ds r false).2 + r +
        (generate_code_block_for_payload_size m ds r false).2 - 1)
      (generate_code_block_for_payload_size m ds r false).2) ds r false
      (generate_code_block_for_payload_size m ds r false).2 := by
    apply EncodedAt_of_bytes (generate_code_block_for_payload_size m ds r false).1
      _ ds ds r false _ hencg
    intro j hj
    exact hcframe (ds + j) (by omega)
  have hencR : EncodedAt (copy_code_block_to_end
      (generate_code_block_for_payload_size m ds r false).1 ds
      (ds + (generate_code_block_for_payload_size m ds r false).2 + r +
        (generate_code_block_for_payload_size m ds r false).2 - 1)
      (generate_code_block_for_payload_size m ds r false).2)
      (ds + (generate_code_block_for_payload_size m ds r false).2 + r) r false
      (generate_code_block_for_payload_size m ds r false).2 := by
    have h0 : EncodedAt (copy_code_block_to_end
        (generate_code_block_for_payload_size m ds r false).1 ds
        (ds + (generate_code_block_for_payload_size m ds r false).2 + r +
          (generate_code_block_for_payload_size m ds r false).2 - 1)
        (generate_code_block_for_payload_size m ds r false).2)
        (ds + (generate_code_block_for_payload_size m ds r false).2 + r +
          (generate_code_block_for_payload_size m ds r false).2 - 1 -
          (generate_code_block_for_payload_size m ds r false).2 + 1) r false
        (generate_code_block_for_payload_size m ds r false).2 := by
      apply EncodedAt_of_bytes (generate_code_block_for_payload_size m ds r false).1
        _ ds _ r false _ hencg
      intro j hj
      exact hcopy j hj
    rw [hX] at h0
    exact h0
  refine ⟨copy_code_block_to_end (generate_code_block_for_payload_size m ds r false).1
    ds (ds + (generate_code_block_for_payload_size m ds r false).2 + r +
      (generate_code_block_for_payload_size m ds r false).2 - 1)
    (generate_code_block_for_payload_size m ds r false).2,
    (generate_code_block_for_payload_size m ds r false).2,
    rfl, hcn, hc1, hc16, hencL, hencR,
    is_free_of_encoded _ _ _ _ _ hencL,
    read_from_left_of_encoded _ _ _ _ _ TAG_FUEL hencL
      (by simpa [TAG_FUEL] using hc16), ?_, ?_⟩
  · have hr2 := read_from_right_of_encoded _
      (ds + (generate_code_block_for_payload_size m ds r false).2 + r) r false
      (generate_code_block_for_payload_size m ds r false).2 TAG_FUEL hencR
      (by simpa [TAG_FUEL] using hc16)
    rw [show ds + (generate_code_block_for_payload_size m ds r false).2 + r +
        ((generate_code_block_for_payload_size m ds r false).2 - 1) =
        ds + 2 * (generate_code_block_for_payload_size m ds r false).2 + r - 1
        by omega] at hr2
    exact hr2
  · intro x hx
    rw [hcframe x (by omega), hfrg x (by omega)]

/-- write_data_size_code_blocks on a record with both ends cached and no
cached next pointer: the whole extent is rewritten as one free block whose
tags decode to the remaining payload and whose next pointer is the
sentinel; nothing outside the extent changes. -/
theorem wdsc_free_spec (m1 : Mem) (ds2 de : Nat) (pr : PageRec)
    (sptr ssize : Option Nat)
    (hds2 : ds2 ≤ de) (h6 : 6 ≤ de - ds2 + 1) (hrange : de - ds2 + 1 < 2 ^ 104) :
    ∃ m5 c2, AllocationData.write_data_size_code_blocks m1
        { data_start := some ds2, data_end := some de, code_block_size := none,
          space := { ptr := sptr, size := ssize, next := none },
          page := some pr } true =
      some (m5,
        { data_start := some ds2, data_end := some de, code_block_size := some c2,
          space :=
            { ptr := some (ds2 + c2), size := some (de - ds2 + 1 - 2 * c2), next := none },
          page := some pr }) ∧
      1 ≤ c2 ∧ 2 * c2 ≤ de - ds2 + 1 ∧ 4 ≤ de - ds2 + 1 - 2 * c2 ∧
      is_free m5 ds2 = true ∧
      read_from_left TAG_FUEL m5 ds2 = some (de - ds2 + 1 - 2 * c2) ∧
      read_from_right TAG_FUEL m5 de = some (de - ds2 + 1 - 2 * c2, de - c2 + 1) ∧
      get_next TAG_FUEL m5 ds2 pr.start_of_page = some 0 ∧
      (∀ x, x < ds2 ∨ de < x → m5 x = m1 x) := by
  have hfuel : get_needed_code_block_size (de - ds2 + 1) + 1 ≤ TAG_FUEL := by
    have h15 : get_needed_code_block_size (de - ds2 + 1) ≤ 15 := by
      rw [needed_le_iff _ 15 (by omega)]
      calc de - ds2 + 1 < 2 ^ 104 := hrange
      _ ≤ 2 ^ (6 + 7 * (15 - 1)) := by norm_num
    simp only [TAG_FUEL]
    omega
  obtain ⟨m3, c2, hgen, hc1, hc16, hstop, hmin, h2c, h4, henc3, hfr3⟩ :=
    gcb_internal_spec TAG_FUEL m1 ds2 (de - ds2 + 1) true h6
      (by calc de - ds2 + 1 < 2 ^ 104 := hrange
          _ ≤ 2 ^ 111 := by norm_num) hfuel
  obtain ⟨hcopy, hcframe⟩ := copy_code_block_to_end_spec m3 ds2 de c2 (by omega)
  have henc4 : EncodedAt (copy_code_block_to_end m3 ds2 de c2) ds2
      (de - ds2 + 1 - 2 * c2) true c2 := by
    apply EncodedAt_of_bytes m3 _ ds2 ds2 _ true c2 henc3
    intro j hj
    exact hcframe (ds2 + j) (by omega)
  have hencR4 : EncodedAt (copy_code_block_to_end m3 ds2 de c2) (de - c2 + 1)
      (de - ds2 + 1 - 2 * c2) true c2 := by
    apply EncodedAt_of_bytes m3 _ ds2 (de - c2 + 1) _ true c2 henc3
    intro j hj
    exact hcopy j hj
  obtain ⟨m5, hsn, hslot, hgn, henc5, hfr5⟩ :=
    set_next_spec (copy_code_block_to_end m3 ds2 de c2) ds2
      (de - ds2 + 1 - 2 * c2) c2 pr.start_of_page 0 henc4 hc16 h4 (Or.inl rfl)
  have hencR5 : EncodedAt m5 (de - c2 + 1) (de - ds2 + 1 - 2 * c2) true c2 := by
    apply EncodedAt_of_bytes (copy_code_block_to_end m3 ds2 de c2) m5
      (de - c2 + 1) (de - c2 + 1) _ true c2 hencR4
    intro j hj
    exact hfr5 (de - c2 + 1 + j) (by omega)
  refine ⟨m5, c2, ?_, hc1, h2c, h4,
    is_free_of_encoded _ _ _ _ _ henc5,
    read_from_left_of_encoded _ _ _ _ _ TAG_FUEL henc5
      (by simpa [TAG_FUEL] using hc16), ?_, hgn, ?_⟩
  · simp only [AllocationData.write_data_size_code_blocks,
      AllocationData.calculate_data_size, hgen, hsn, Option.bind_eq_bind,
      Option.some_bind]
  · have hr := read_from_right_of_encoded m5 (de - c2 + 1) _ true c2 TAG_FUEL
      hencR5 (by simpa [TAG_FUEL] using hc16)
    rw [show de - c2 + 1 + (c2 - 1) = de by omega] at hr
    exact hr
  · intro x hx
    rw [hfr5 x (by omega), hcframe x (by omega), hfr3 x (by omega)]

/-- consume_whole_block on a free block: the free bit flips to used, the
size is unchanged, and the tag is mirrored to the right end. -/
theorem consume_whole_block_spec (m : Mem) (ds S c0 : Nat)
    (henc : EncodedAt m ds S true c0) (hc0 : c0 ≤ 16) (hS : 4 ≤ S) :
    ∃ m3, Page.consume_whole_block m ds = some m3 ∧
      is_free m3 ds = false ∧
      read_from_left TAG_FUEL m3 ds = some S ∧
      read_from_right TAG_FUEL m3 (ds + 2 * c0 + S - 1) = some (S, ds + c0 + S) ∧
      (∀ x, x < ds ∨ ds + 2 * c0 + S - 1 < x → m3 x = m x) := by
  obtain ⟨hencF, hsfr⟩ := set_free_encoded m ds S true false c0 henc
  have hcle : c0 ≤ TAG_FUEL := by simpa [TAG_FUEL] using hc0
  have hgbs1 : get_block_size TAG_FUEL (set_free m ds false) ds = some c0 :=
    get_block_size_of_encoded _ ds S false c0 TAG_FUEL hencF hcle
  have hrfl1 : read_from_left TAG_FUEL (set_free m ds false) ds = some S :=
    read_from_left_of_encoded _ ds S false c0 TAG_FUEL hencF hcle
  have hrme1 : get_right_most_end TAG_FUEL (set_free m ds false) ds =
      some (ds + 2 * c0 + S - 1) := by
    simp [get_right_most_end, hrfl1, hgbs1]
  obtain ⟨hcopy, hcframe⟩ := copy_code_block_to_end_spec (set_free m ds false) ds
    (ds + 2 * c0 + S - 1) c0 (by omega)
  have hc1 : 1 ≤ c0 := EncodedAt_pos _ _ _ _ _ hencF
  have hencL3 : EncodedAt (copy_code_block_to_end (set_free m ds false) ds
      (ds + 2 * c0 + S - 1) c0) ds S false c0 := by
    apply EncodedAt_of_bytes (set_free m ds false) _ ds ds S false c0 hencF
    intro j hj
    exact hcframe (ds + j) (by omega)
  have hX : ds + 2 * c0 + S - 1 - c0 + 1 = ds + c0 + S := by omega
  have hencR3 : EncodedAt (copy_code_block_to_end (set_free m ds false) ds
      (ds + 2 * c0 + S - 1) c0) (ds + c0 + S) S false c0 := by
    have h0 : EncodedAt (copy_code_block_to_end (set_free m ds false) ds
        (ds + 2 * c0 + S - 1) c0) (ds + 2 * c0 + S - 1 - c0 + 1) S false c0 := by
      apply EncodedAt_of_bytes (set_free m ds false) _ ds _ S false c0 hencF
      intro j hj
      exact hcopy j hj
    rw [hX] at h0
    exact h0
  refine ⟨copy_code_block_to_end (set_free m ds false) ds (ds + 2 * c0 + S - 1) c0,
    ?_, is_free_of_encoded _ _ _ _ _ hencL3,
    read_from_left_of_encoded _ _ _ _ _ TAG_FUEL hencL3 hcle, ?_, ?_⟩
  · simp only [Page.consume_whole_block, hgbs1, hrme1, Option.bind_eq_bind,
      Option.some_bind]
  · have hr := read_from_right_of_encoded _ (ds + c0 + S) S false c0 TAG_FUEL
      hencR3 hcle
    rw [show ds + c0 + S + (c0 - 1) = ds + 2 * c0 + S - 1 by omega] at hr
    exact hr
  · intro x hx
    rw [hcframe x (by omega), hsfr x (by omega)]

theorem EncodedAt_fit (m : Mem) (a size : Nat) (f : Bool) (c : Nat)
    (h : EncodedAt m a size f c) : size < 2 ^ (6 + 7 * (c - 1)) := by
  by_cases h1 : c = 1
  · subst h1
    rw [EncodedAt_one] at h
    simpa using h.1
  · rw [EncodedAt_ge2 _ _ _ _ _ h1] at h
    exact h.2.1

/-- C2: serving a request of payload r from a free block of payload S.  When
the difference is below the smallest free block (6 bytes) split_free_space
splits nothing (the remainder record gets size 0, memory is untouched) and
consuming the whole block flips its free bit with the size unchanged;
otherwise the block is split into a left used block of payload exactly r and
a right free remainder, the two blocks exactly tiling the original extent
from ds to de. -/
theorem c2_split_free_space (m : Mem) (ds S r c0 de : Nat) (pr : PageRec)
    (hde : de = ds + 2 * c0 + S - 1)
    (henc : EncodedAt m ds S true c0)
    (h4r : 4 ≤ r) (hrS : r ≤ S) (hS : S < 2 ^ 60) (hc0 : c0 ≤ 16) :
    (S - r < 6 →
      Page.split_free_space m
          { data_start := some ds, data_end := none, code_block_size := none,
            space := { ptr := none, size := some r, next := none },
            page := some pr }
          { data_start := none, data_end := some de, code_block_size := none,
            space := { ptr := some (ds + c0), size := some S, next := none },
            page := some pr } =
        some (m,
          { data_start := some ds, data_end := none, code_block_size := none,
            space := { ptr := none, size := some r, next := none },
            page := some pr },
          { data_start := none, data_end := some de, code_block_size := none,
            space := { ptr := some (ds + c0), size := some 0, next := none },
            page := some pr }) ∧
      ∃ m3, Page.consume_whole_block m ds = some m3 ∧
        is_free m3 ds = false ∧
        read_from_left TAG_FUEL m3 ds = some S ∧
        read_from_right TAG_FUEL m3 de = some (S, ds + c0 + S)) ∧
    (6 ≤ S - r →
      ∃ m2 ad1 fa2 c1 c2,
        Page.split_free_space m
            { data_start := some ds, data_end := none, code_block_size := none,
              space := { ptr := none, size := some r, next := none },
              page := some pr }
            { data_start := none, data_end := some de, code_block_size := none,
              space := { ptr := some (ds + c0), size := some S, next := none },
              page := some pr } =
          some (m2, ad1, fa2) ∧
        c1 = get_needed_code_block_size r ∧ 1 ≤ c2 ∧
        ad1.data_start = some ds ∧
        ad1.code_block_size = some c1 ∧
        ad1.data_end = some (ds + 2 * c1 + r - 1) ∧
        ad1.space.size = some r ∧
        is_free m2 ds = false ∧
        read_from_left TAG_FUEL m2 ds = some r ∧
        read_from_right TAG_FUEL m2 (ds + 2 * c1 + r - 1) =
          some (r, ds + c1 + r) ∧
        fa2.data_start = some (ds + 2 * c1 + r) ∧
        fa2.data_end = some de ∧
        fa2.space.size = some (de - (ds + 2 * c1 + r) + 1 - 2 * c2) ∧
        is_free m2 (ds + 2 * c1 + r) = true ∧
        read_from_left TAG_FUEL m2 (ds + 2 * c1 + r) =
          some (de - (ds + 2 * c1 + r) + 1 - 2 * c2) ∧
        4 ≤ de - (ds + 2 * c1 + r) + 1 - 2 * c2 ∧
        ds + 2 * c1 + r + 2 * c2 + (de - (ds + 2 * c1 + r) + 1 - 2 * c2) - 1 =
          de) := by
  have hc0pos : 1 ≤ c0 := EncodedAt_pos m ds S true c0 henc
  have hfit := EncodedAt_fit m ds S true c0 henc
  have hneedS : get_needed_code_block_size S ≤ c0 := by
    rw [needed_le_iff S c0 hc0pos]
    exact hfit
  have hneedr : get_needed_code_block_size r ≤ c0 :=
    le_trans (needed_mono hrS) hneedS
  have hcsub : checkedSub S r = some (S - r) := by simp [checkedSub, hrS]
  constructor
  · intro hA
    have hpos : S - r < SMALLEST_POSSIBLE_FREE_SPACE := by
      simp only [SMALLEST_POSSIBLE_FREE_SPACE]
      omega
    constructor
    · simp only [Page.split_free_space, hcsub, Option.bind_eq_bind,
        Option.some_bind]
      rw [if_pos hpos]
    · obtain ⟨m3, hcons, hf, hl, hr, _⟩ :=
        consume_whole_block_spec m ds S c0 henc hc0 (by omega)
      refine ⟨m3, hcons, hf, hl, ?_⟩
      rw [hde]
      exact hr
  · intro hB
    have hneg : ¬ (S - r < SMALLEST_POSSIBLE_FREE_SPACE) := by
      simp only [SMALLEST_POSSIBLE_FREE_SPACE]
      omega
    obtain ⟨m1, c1, hwss, hcn, hc1pos, hc116, hencL1, hencR1, hfree1, hrl1, hrr1,
      hfr1⟩ := wssc_spec m ds r pr h4r
        (by calc r ≤ S := hrS
            _ < 2 ^ 60 := hS
            _ ≤ 2 ^ 111 := by norm_num)
    have hc1c0 : c1 ≤ c0 := by
      rw [hcn]
      exact hneedr
    have hDeq : ds + c1 + r + c1 - 1 + 1 = ds + 2 * c1 + r := by omega
    obtain ⟨m5, c2, hwd, hc2pos, h2c2, h4T, hfree5, hrl5, hrr5, hgn5, hfr5⟩ :=
      wdsc_free_spec m1 (ds + c1 + r + c1 - 1 + 1) de pr (some (ds + c0)) (some S)
        (by omega) (by omega) (by omega)
    have hencL5 : EncodedAt m5 ds r false c1 := by
      apply EncodedAt_of_bytes m1 m5 ds ds r false c1 hencL1
      intro j hj
      exact hfr5 (ds + j) (by omega)
    have hencR5 : EncodedAt m5 (ds + c1 + r) r false c1 := by
      apply EncodedAt_of_bytes m1 m5 (ds + c1 + r) (ds + c1 + r) r false c1 hencR1
      intro j hj
      exact hfr5 (ds + c1 + r + j) (by omega)
    rw [hDeq] at hwd hfree5 hrl5 h4T h2c2
    refine ⟨m5,
      { data_start := some ds, data_end := some (ds + c1 + r + c1 - 1),
        code_block_size := some c1,
        space := { ptr := some (ds + c1), size := some r, next := none },
        page := some pr },
      { data_start := some (ds + 2 * c1 + r), data_end := some de,
        code_block_size := some c2,
        space :=
          { ptr := some (ds + 2 * c1 + r + c2),
            size := some (de - (ds + 2 * c1 + r) + 1 - 2 * c2), next := none },
        page := some pr },
      c1, c2, ?_, hcn, hc2pos, rfl, rfl, ?_, rfl, is_free_of_encoded _ _ _ _ _ hencL5,
      read_from_left_of_encoded _ _ _ _ _ TAG_FUEL hencL5
        (by simpa [TAG_FUEL] using hc116), ?_, rfl, rfl, rfl,
      hfree5, hrl5, h4T, by omega⟩
    · simp only [Page.split_free_space, hcsub, Option.bind_eq_bind,
        Option.some_bind]
      rw [if_neg hneg]
      simp only [hwss, Option.some_bind]
      rw [show (ds + c1 + r + c1 - 1 + 1) = ds + 2 * c1 + r from hDeq]
      simp only [hwd, Option.some_bind]
    · show some (ds + c1 + r + c1 - 1) = some (ds + 2 * c1 + r - 1)
      congr 1
      omega
    · have hr2 := read_from_right_of_encoded m5 (ds + c1 + r) r false c1 TAG_FUEL
        hencR5 (by simpa [TAG_FUEL] using hc116)
      rw [show ds + c1 + r + (c1 - 1) = ds + 2 * c1 + r - 1 by omega] at hr2
      exact hr2

theorem c2_split_free_space_witness :
    EncodedAt c2_mem 0 96 true 2 ∧
    ((96 - 20 < 6 →
      Page.split_free_space c2_mem
          { data_start := some 0, data_end := none, code_block_size := none,
            space := { ptr := none, size := some 20, next := none },
            page := some (PageRec.mk 0 100) }
          { data_start := none, data_end := some 99, code_block_size := none,
            space := { ptr := some (0 + 2), size := some 96, next := none },
            page := some (PageRec.mk 0 100) } =
        some (c2_mem,
          { data_start := some 0, data_end := none, code_block_size := none,
            space := { ptr := none, size := some 20, next := none },
            page := some (PageRec.mk 0 100) },
          { data_start := none, data_end := some 99, code_block_size := none,
            space := { ptr := some (0 + 2), size := some 0, next := none },
            page := some (PageRec.mk 0 100) }) ∧
      ∃ m3, Page.consume_whole_block c2_mem 0 = some m3 ∧
        is_free m3 0 = false ∧
        read_from_left TAG_FUEL m3 0 = some 96 ∧
        read_from_right TAG_FUEL m3 99 = some (96, 0 + 2 + 96)) ∧
    (6 ≤ 96 - 20 →
      ∃ m2 ad1 fa2 c1 c2,
        Page.split_free_space c2_mem
            { data_start := some 0, data_end := none, code_block_size := none,
              space := { ptr := none, size := some 20, next := none },
              page := some (PageRec.mk 0 100) }
            { data_start := none, data_end := some 99, code_block_size := none,
              space := { ptr := some (0 + 2), size := some 96, next := none },
              page := some (PageRec.mk 0 100) } =
          some (m2, ad1, fa2) ∧
        c1 = get_needed_code_block_size 20 ∧ 1 ≤ c2 ∧
        ad1.data_start = some 0 ∧
        ad1.code_block_size = some c1 ∧
        ad1.data_end = some (0 + 2 * c1 + 20 - 1) ∧
        ad1.space.size = some 20 ∧
        is_free m2 0 = false ∧
        read_from_left TAG_FUEL m2 0 = some 20 ∧
        read_from_right TAG_FUEL m2 (0 + 2 * c1 + 20 - 1) =
          some (20, 0 + c1 + 20) ∧
        fa2.data_start = some (0 + 2 * c1 + 20) ∧
        fa2.data_end = some 99 ∧
        fa2.space.size = some (99 - (0 + 2 * c1 + 20) + 1 - 2 * c2) ∧
        is_free m2 (0 + 2 * c1 + 20) = true ∧
        read_from_left TAG_FUEL m2 (0 + 2 * c1 + 20) =
          some (99 - (0 + 2 * c1 + 20) + 1 - 2 * c2) ∧
        4 ≤ 99 - (0 + 2 * c1 + 20) + 1 - 2 * c2 ∧
        0 + 2 * c1 + 20 + 2 * c2 + (99 - (0 + 2 * c1 + 20) + 1 - 2 * c2) - 1 =
          99)) :=
  ⟨by decide,
    c2_split_free_space c2_mem 0 96 20 2 99 (PageRec.mk 0 100) (by decide)
      (by decide) (by decide) (by decide) (by decide) (by decide)⟩

/-- C1 (code bug): the dynamic_new loop of page_list.rs is inverted.  On a
one-page ring whose page serves every request (the serving function returns
the non-null block 42), dynamic_new returns the null pointer: the loop
breaks only when a page FAILS, and iterates the ring while pages succeed
until appending a page fails.  When the page cannot serve (null), the loop
breaks and get_start_of_space dereferences the null pointer. -/
theorem c1_dynamic_new_inverted :
    Option.map dyn_result_ptr (PageRing.dynamic_new (fun _ => 42) 10 c1_ring) =
      some (some 0) ∧
    Option.map dyn_result_ptr (PageRing.dynamic_new (fun _ => 0) 10 c1_ring) =
      some none := by decide

/-- C3 (code bug): after delete_block frees the used block at 66, its free
left neighbor (the merged block of payload 62 with two-byte tags at 0) is
still there and still free: get_left_neighbor recomputed the neighbor's tag
size with get_needed_code_block_size (1 byte for payload 62) instead of the
actual 2-byte tag, landed at address 1 instead of 0, read a non-free byte
and skipped coalescing, leaving two adjacent free blocks. -/
theorem c3_delete_block_leaves_adjacent_free_blocks :
    is_free c3_mem 0 = true ∧
    (Page.delete_block c3_page c3_bl c3_mem c3_ad).map
        (fun res => (is_free res.1 0, get_block_size TAG_FUEL res.1 0,
          read_from_left TAG_FUEL res.1 0, is_free res.1 66,
          read_from_left TAG_FUEL res.1 66)) =
      some (true, some 2, some 62, true, some 31) := by decide

/-- C8 (code bug): the boundary test of left_neighbor is inverted.  For an
interior record (data_start 120, a decodable block ending at 119)
left_neighbor returns no neighbor, while for the record at the page start
(data_start 100) it builds a neighbor record ending at byte 99 before the
page. -/
theorem c8_left_neighbor_inverted :
    read_from_right TAG_FUEL c8_mem 119 = some (31, 119) ∧
    (AllocationData.left_neighbor c8_mem c8_interior).map
        (fun r => r.isSome) = some false ∧
    (AllocationData.left_neighbor c8_mem c8_boundary).map
        (fun r => Option.map (fun l => l.data_end) r) =
      some (some (some 99)) := by decide

/-- The page-count loop of Mara::new terminates within max_pages + 1
iterations: every non-terminal round decrements max_pages. -/
theorem mara_new_loop_total :
    ∀ mp fuel ps ds pods, mp + 1 ≤ fuel →
      ∃ r, mara_new_loop fuel ps ds mp pods = some r := by
  intro mp
  induction mp with
  | zero =>
    intro fuel ps ds pods hf
    obtain ⟨f2, rfl⟩ : ∃ f2, fuel = f2 + 1 := ⟨fuel - 1, by omega⟩
    cases hcs : checkedSub ds pods with
    | none =>
      refine ⟨MaraLoopResult.underflow, ?_⟩
      simp [mara_new_loop, hcs]
    | some rem =>
      by_cases hfix : rem / ps = 0
      · refine ⟨MaraLoopResult.fixpoint 0 pods, ?_⟩
        simp [mara_new_loop, hcs, hfix]
      · refine ⟨MaraLoopResult.underflow, ?_⟩
        simp [mara_new_loop, hcs, hfix]
  | succ mp ih =>
    intro fuel ps ds pods hf
    obtain ⟨f2, rfl⟩ : ∃ f2, fuel = f2 + 1 := ⟨fuel - 1, by omega⟩
    cases hcs : checkedSub ds pods with
    | none =>
      refine ⟨MaraLoopResult.underflow, ?_⟩
      simp [mara_new_loop, hcs]
    | some rem =>
      by_cases hfix : rem / ps = mp + 1
      · refine ⟨MaraLoopResult.fixpoint (mp + 1) pods, ?_⟩
        simp [mara_new_loop, hcs, hfix]
      · cases pods with
        | zero =>
          refine ⟨MaraLoopResult.underflow, ?_⟩
          simp [mara_new_loop, hcs, hfix]
        | succ pods2 =>
          obtain ⟨r, hr⟩ := ih f2 ps ds pods2 (by omega)
          refine ⟨r, ?_⟩
          simp only [mara_new_loop, hcs]
          rw [if_neg hfix]
          exact hr

/-- C10 (counterexample): with page_size 1 and data_size 1000 the first
subtraction data_size - page_object_data_size already underflows (1000 <
176000), so the constructor aborts instead of returning an allocator or the
NotEnoughMemory error. -/
theorem c10_mara_new_underflow :
    Mara.new 2 1 1000 = some MaraNewOutcome.panic := by decide

/-- C10 (amended): for every positive page size the page-count loop of
Mara::new terminates within data_size / page_size + 1 iterations, and the
constructor always produces an outcome: an allocator, the NotEnoughMemory
error, or a panic (the subtraction data_size - page_object_data_size can
underflow, which a debug build surfaces as an abort). -/
theorem c10_mara_new_total (ps ds : Nat) (h : 0 < ps) :
    ∃ r, Mara.new (ds / ps + 2) ps ds = some r := by
  obtain ⟨r, hr⟩ := mara_new_loop_total (ds / ps) (ds / ps + 2) ps ds
    (ds / ps * size_of_page) (by omega)
  unfold Mara.new
  rw [if_neg (by omega)]
  cases r with
  | underflow =>
    refine ⟨MaraNewOutcome.panic, ?_⟩
    rw [hr]
  | fixpoint mp pods =>
    by_cases hmp : mp = 0
    · refine ⟨MaraNewOutcome.errNotEnoughMemory, ?_⟩
      rw [hr]
      simp [hmp]
    · cases hcs : checkedSub ds mp with
      | none =>
        refine ⟨MaraNewOutcome.panic, ?_⟩
        rw [hr]
        simp [hmp, hcs]
      | some rem =>
        refine ⟨MaraNewOutcome.okAllocator mp, ?_⟩
        rw [hr]
        simp [hmp, hcs]

theorem c10_mara_new_total_witness :
    0 < 3 ∧ ∃ r, Mara.new (100 / 3 + 2) 3 100 = some r :=
  ⟨by decide, c10_mara_new_total 3 100 (by decide)⟩

end RustyMara
